import Mathlib

/-
Verification development for the heyoka repository sources.

Shallow embedding conventions:
* floating-point values are embedded as exact rationals (ℚ) wherever the
  claim under scrutiny is about exact/structural behaviour;
* fallible C++ functions (functions that throw) are embedded as
  `Except`-returning Lean functions;
* C++ `std::vector` becomes `List`, index loops become structural
  recursion or folds over `List.range`-style ranges.
-/

namespace Heyoka

/-! ## Pairwise summation

Embedding of `double pairwise_sum(std::vector<double> sum)` from
`src/benchmark/mascon_model_itokawa.cpp` (lines 40-67).  The values are
embedded as exact rationals, matching the claim's "in exact arithmetic"
reading.  The `while` loop repeatedly replaces the vector by the vector
of adjacent-pair sums (with the trailing element carried over unchanged
when the size is odd) until one element remains.
-/

/-- One pass of the inner `for` loop of `pairwise_sum`: sum adjacent
pairs; a trailing lone element (odd size) is appended unchanged. -/
def pwRound : List ℚ → List ℚ
  | [] => []
  | [x] => [x]
  | x :: y :: rest => (x + y) :: pwRound rest

theorem pwRound_length (l : List ℚ) : (pwRound l).length = (l.length + 1) / 2 := by
  match l with
  | [] => rfl
  | [x] => simp [pwRound]
  | x :: y :: rest =>
    simp only [pwRound, List.length_cons, pwRound_length rest]
    omega

theorem pwRound_sum (l : List ℚ) : (pwRound l).sum = l.sum := by
  match l with
  | [] => rfl
  | [x] => simp [pwRound]
  | x :: y :: rest =>
    simp only [pwRound, List.sum_cons, pwRound_sum rest]
    ring

theorem pwRound_ne_nil (l : List ℚ) (h : l ≠ []) : pwRound l ≠ [] := by
  match l with
  | [] => exact absurd rfl h
  | [x] => simp [pwRound]
  | x :: y :: rest => simp [pwRound]

/-- The body of the `while (sum.size() != 1u)` loop of `pairwise_sum`,
iterated at most `fuel` times.  (On the empty list — which the C++ code
filters out before entering the loop — this returns immediately.) -/
def pwLoopGo : ℕ → List ℚ → List ℚ
  | 0, l => l
  | fuel + 1, l => if l.length ≤ 1 then l else pwLoopGo fuel (pwRound l)

/-- The `while` loop of `pairwise_sum`: the initial length bounds the
number of rounds (each round at least halves the length), so with that
much fuel the loop runs to completion — `pwLoop_while_eq` certifies the
while-loop equation and `pwLoop_length` that a single element remains. -/
def pwLoop (l : List ℚ) : List ℚ := pwLoopGo l.length l

theorem pwLoopGo_stable (f1 : ℕ) : ∀ (f2 : ℕ) (l : List ℚ), l.length ≤ f1 + 1 →
    l.length ≤ f2 + 1 → pwLoopGo f1 l = pwLoopGo f2 l := by
  induction f1 with
  | zero =>
    intro f2 l h1 h2
    cases f2 with
    | zero => rfl
    | succ f2 => simp [pwLoopGo, if_pos h1]
  | succ f1 ih =>
    intro f2 l h1 h2
    cases f2 with
    | zero => simp [pwLoopGo, if_pos h2]
    | succ f2 =>
      simp only [pwLoopGo]
      by_cases hl : l.length ≤ 1
      · rw [if_pos hl, if_pos hl]
      · rw [if_neg hl, if_neg hl]
        apply ih
        · rw [pwRound_length]; omega
        · rw [pwRound_length]; omega

/-- The loop satisfies the defining equation of the source's `while`
loop. -/
theorem pwLoop_while_eq (l : List ℚ) :
    pwLoop l = if l.length ≤ 1 then l else pwLoop (pwRound l) := by
  unfold pwLoop
  by_cases hl : l.length ≤ 1
  · rw [if_pos hl]
    cases hll : l.length with
    | zero => rfl
    | succ n =>
      simp only [pwLoopGo]
      rw [if_pos hl]
  · rw [if_neg hl]
    obtain ⟨f, hf⟩ : ∃ f, l.length = f + 1 := ⟨l.length - 1, by omega⟩
    rw [hf]
    simp only [pwLoopGo]
    rw [if_neg hl]
    apply pwLoopGo_stable
    · rw [pwRound_length]; omega
    · omega

theorem pwLoopGo_sum (fuel : ℕ) : ∀ l : List ℚ, (pwLoopGo fuel l).sum = l.sum := by
  induction fuel with
  | zero => intro l; rfl
  | succ fuel ih =>
    intro l
    simp only [pwLoopGo]
    split
    · rfl
    · rw [ih, pwRound_sum]

theorem pwLoop_sum (l : List ℚ) : (pwLoop l).sum = l.sum := pwLoopGo_sum _ _

theorem pwLoopGo_length (fuel : ℕ) : ∀ l : List ℚ, l ≠ [] → l.length ≤ fuel + 1 →
    (pwLoopGo fuel l).length = 1 := by
  induction fuel with
  | zero =>
    intro l h hf
    have := List.length_pos.mpr h
    simp only [pwLoopGo]
    omega
  | succ fuel ih =>
    intro l h hf
    simp only [pwLoopGo]
    by_cases hl : l.length ≤ 1
    · rw [if_pos hl]
      have := List.length_pos.mpr h
      omega
    · rw [if_neg hl]
      refine ih (pwRound l) (pwRound_ne_nil l h) ?_
      rw [pwRound_length]
      omega

theorem pwLoop_length (l : List ℚ) (h : l ≠ []) : (pwLoop l).length = 1 :=
  pwLoopGo_length _ _ h (by omega)

/-- `std::numeric_limits<std::vector<double>::size_type>::max()`. -/
def sizeMax : ℕ := 2 ^ 64 - 1

/-- Embedding of `pairwise_sum` (benchmark file, lines 40-67): guard
against a size at the numeric limit, return `0` on the empty vector,
otherwise run the pairing loop to a single element and return it. -/
def pairwise_sum (sum : List ℚ) : Except String ℚ :=
  if sum.length = sizeMax then .error "Overflow detected in pairwise_sum()"
  else if sum.isEmpty then .ok 0
  else .ok ((pwLoop sum).headD 0)

/-! ### The pairing tree

To state the structural half of the pairwise-summation contract we
rebuild, round for round, the binary tree that the loop implicitly
reduces: leaves are the operands, and each round replaces two adjacent
trees by a node.  `pwLoop` then computes exactly the value of that tree,
the in-order leaves of the tree are the original operand list, and the
tree is left-leaning (at every node the right subtree is at most as high
as the left one — with an odd operand count the carried trailing element
ends up as a shallow right leaf). -/

inductive PTree where
  | leaf (q : ℚ)
  | node (l r : PTree)
deriving DecidableEq

/-- Value of the pairing tree: sum its leaves along the node structure. -/
def PTree.val : PTree → ℚ
  | .leaf q => q
  | .node l r => l.val + r.val

/-- In-order leaf list. -/
def PTree.leaves : PTree → List ℚ
  | .leaf q => [q]
  | .node l r => l.leaves ++ r.leaves

/-- Height of the pairing tree. -/
def PTree.ht : PTree → ℕ
  | .leaf _ => 0
  | .node l r => max l.ht r.ht + 1

/-- A tree is left-leaning when at every node the right subtree is no
higher than the left subtree. -/
def PTree.leftLeaning : PTree → Prop
  | .leaf _ => True
  | .node l r => r.ht ≤ l.ht ∧ l.leftLeaning ∧ r.leftLeaning

/-- Boolean test for `PTree.leftLeaning`. -/
def PTree.leftLeaningB : PTree → Bool
  | .leaf _ => true
  | .node l r => decide (r.ht ≤ l.ht) && l.leftLeaningB && r.leftLeaningB

theorem PTree.leftLeaningB_iff (t : PTree) : t.leftLeaningB = true ↔ t.leftLeaning := by
  induction t with
  | leaf q => simp [leftLeaningB, leftLeaning]
  | node l r ihl ihr =>
    simp [leftLeaningB, leftLeaning, ihl, ihr, and_assoc]

instance : DecidablePred PTree.leftLeaning := fun t =>
  decidable_of_iff _ (PTree.leftLeaningB_iff t)

/-- Tree-level mirror of `pwRound`. -/
def treeRound : List PTree → List PTree
  | [] => []
  | [t] => [t]
  | t :: u :: rest => .node t u :: treeRound rest

theorem treeRound_map_val (ts : List PTree) :
    pwRound (ts.map PTree.val) = (treeRound ts).map PTree.val := by
  match ts with
  | [] => rfl
  | [t] => rfl
  | t :: u :: rest =>
    simp only [List.map_cons, pwRound, treeRound, treeRound_map_val rest, PTree.val]

theorem treeRound_length (ts : List PTree) :
    (treeRound ts).length = (ts.length + 1) / 2 := by
  match ts with
  | [] => rfl
  | [t] => simp [treeRound]
  | t :: u :: rest =>
    simp only [treeRound, List.length_cons, treeRound_length rest]
    omega

/-- Tree-level mirror of `pwLoopGo`. -/
def treeLoopGo : ℕ → List PTree → List PTree
  | 0, ts => ts
  | fuel + 1, ts => if ts.length ≤ 1 then ts else treeLoopGo fuel (treeRound ts)

/-- Tree-level mirror of `pwLoop`. -/
def treeLoop (ts : List PTree) : List PTree := treeLoopGo ts.length ts

theorem treeLoopGo_map_val (fuel : ℕ) : ∀ ts : List PTree,
    pwLoopGo fuel (ts.map PTree.val) = (treeLoopGo fuel ts).map PTree.val := by
  induction fuel with
  | zero => intro ts; rfl
  | succ fuel ih =>
    intro ts
    simp only [pwLoopGo, treeLoopGo, List.length_map]
    by_cases hl : ts.length ≤ 1
    · rw [if_pos hl, if_pos hl]
    · rw [if_neg hl, if_neg hl, treeRound_map_val, ih]

theorem treeLoop_map_val (ts : List PTree) :
    pwLoop (ts.map PTree.val) = (treeLoop ts).map PTree.val := by
  unfold pwLoop treeLoop
  rw [List.length_map]
  exact treeLoopGo_map_val _ _

/-- The tree built by the pairing loop from an operand list. -/
def buildTree (l : List ℚ) : PTree :=
  (treeLoop (l.map PTree.leaf)).headD (.leaf 0)

theorem treeRound_leaves (ts : List PTree) :
    ((treeRound ts).map PTree.leaves).flatten = (ts.map PTree.leaves).flatten := by
  match ts with
  | [] => rfl
  | [t] => rfl
  | t :: u :: rest =>
    simp only [treeRound, List.map_cons, List.flatten_cons, PTree.leaves,
      treeRound_leaves rest, List.append_assoc]

theorem treeLoopGo_leaves (fuel : ℕ) : ∀ ts : List PTree,
    ((treeLoopGo fuel ts).map PTree.leaves).flatten = (ts.map PTree.leaves).flatten := by
  induction fuel with
  | zero => intro ts; rfl
  | succ fuel ih =>
    intro ts
    simp only [treeLoopGo]
    split
    · rfl
    · rw [ih, treeRound_leaves]

theorem treeLoop_leaves (ts : List PTree) :
    ((treeLoop ts).map PTree.leaves).flatten = (ts.map PTree.leaves).flatten :=
  treeLoopGo_leaves _ _

theorem treeRound_ne_nil (ts : List PTree) (h : ts ≠ []) : treeRound ts ≠ [] := by
  match ts with
  | [] => exact absurd rfl h
  | [t] => simp [treeRound]
  | t :: u :: rest => simp [treeRound]

theorem treeLoopGo_length (fuel : ℕ) : ∀ ts : List PTree, ts ≠ [] →
    ts.length ≤ fuel + 1 → (treeLoopGo fuel ts).length = 1 := by
  induction fuel with
  | zero =>
    intro ts h hf
    have := List.length_pos.mpr h
    simp only [treeLoopGo]
    omega
  | succ fuel ih =>
    intro ts h hf
    simp only [treeLoopGo]
    by_cases hl : ts.length ≤ 1
    · rw [if_pos hl]
      have := List.length_pos.mpr h
      omega
    · rw [if_neg hl]
      refine ih (treeRound ts) (treeRound_ne_nil ts h) ?_
      rw [treeRound_length]
      omega

theorem treeLoop_length (ts : List PTree) (h : ts ≠ []) : (treeLoop ts).length = 1 :=
  treeLoopGo_length _ _ h (by omega)

/-- The invariant carried through the rounds: the heights along the list
of trees are non-increasing, and every tree is left-leaning. -/
def TreesOrdered (ts : List PTree) : Prop :=
  ts.Chain' (fun a b => b.ht ≤ a.ht) ∧ ∀ t ∈ ts, t.leftLeaning

theorem treeRound_ordered (ts : List PTree) (h : TreesOrdered ts) :
    TreesOrdered (treeRound ts) := by
  match ts with
  | [] => exact h
  | [t] => exact h
  | t :: u :: rest =>
    obtain ⟨hc, hl⟩ := h
    rw [List.chain'_cons] at hc
    obtain ⟨hut, hc⟩ := hc
    have hhead := (List.chain'_cons'.mp hc).1
    have hcrest := (List.chain'_cons'.mp hc).2
    have hrec : TreesOrdered (treeRound rest) := by
      refine treeRound_ordered rest ⟨hcrest, ?_⟩
      intro v hv
      exact hl v (by simp [hv])
    constructor
    · show List.Chain' _ (.node t u :: treeRound rest)
      rw [List.chain'_cons']
      refine ⟨?_, hrec.1⟩
      intro w hw
      -- the head of `treeRound rest` is either `rest.head` itself (carried
      -- over) or a node over `rest.head` and its successor; either way its
      -- height is at most `rest.head.ht + 1 ≤ u.ht + 1 ≤ t.ht + 1`.
      match rest, hw with
      | [r], hw =>
        simp only [treeRound, List.head?_cons, Option.mem_def, Option.some.injEq] at hw
        subst hw
        have hr := hhead r rfl
        simp only [PTree.ht]
        omega
      | r :: s :: rest', hw =>
        simp only [treeRound, List.head?_cons, Option.mem_def, Option.some.injEq] at hw
        subst hw
        have hr := hhead r rfl
        have hsr : s.ht ≤ r.ht := (List.chain'_cons.mp hcrest).1
        simp only [PTree.ht]
        omega
    · intro v hv
      simp only [treeRound, List.mem_cons] at hv
      rcases hv with hv | hv
      · subst hv
        refine ⟨hut, hl t (by simp), hl u (by simp)⟩
      · exact hrec.2 v hv

theorem treeLoopGo_ordered (fuel : ℕ) : ∀ ts : List PTree, TreesOrdered ts →
    TreesOrdered (treeLoopGo fuel ts) := by
  induction fuel with
  | zero => intro ts h; exact h
  | succ fuel ih =>
    intro ts h
    simp only [treeLoopGo]
    split
    · exact h
    · exact ih _ (treeRound_ordered ts h)

theorem treeLoop_ordered (ts : List PTree) (h : TreesOrdered ts) :
    TreesOrdered (treeLoop ts) :=
  treeLoopGo_ordered _ _ h

theorem chain_ht_map_leaf (l : List ℚ) :
    (l.map PTree.leaf).Chain' (fun a b => b.ht ≤ a.ht) := by
  induction l with
  | nil => simp
  | cons a l ih =>
    rw [List.map_cons, List.chain'_cons']
    refine ⟨fun w hw => ?_, ih⟩
    cases l with
    | nil => simp at hw
    | cons b l' =>
      simp only [List.map_cons, List.head?_cons, Option.mem_def, Option.some.injEq] at hw
      subst hw
      simp [PTree.ht]

theorem flatten_leaves_map_leaf (l : List ℚ) :
    ((l.map PTree.leaf).map PTree.leaves).flatten = l := by
  induction l with
  | nil => rfl
  | cons a l ih =>
    simp only [List.map_cons, List.flatten_cons, PTree.leaves, ih]
    rfl

theorem buildTree_leftLeaning (l : List ℚ) : (buildTree l).leftLeaning := by
  have h0 : TreesOrdered (l.map PTree.leaf) := by
    constructor
    · exact chain_ht_map_leaf l
    · intro t ht
      simp only [List.mem_map] at ht
      obtain ⟨q, _, rfl⟩ := ht
      trivial
  have := treeLoop_ordered (l.map PTree.leaf) h0
  unfold buildTree
  match hm : treeLoop (l.map PTree.leaf) with
  | [] => trivial
  | t :: rest =>
    have := this.2 t (by rw [hm]; simp)
    simpa using this

theorem buildTree_leaves (l : List ℚ) (h : l ≠ []) : (buildTree l).leaves = l := by
  have hlen := treeLoop_length (l.map PTree.leaf) (by simpa using h)
  have hleaves := treeLoop_leaves (l.map PTree.leaf)
  rw [flatten_leaves_map_leaf] at hleaves
  unfold buildTree
  match hm : treeLoop (l.map PTree.leaf) with
  | [] => rw [hm] at hlen; simp at hlen
  | [t] =>
    rw [hm] at hleaves
    simp only [List.map_cons, List.map_nil, List.flatten_cons, List.flatten_nil,
      List.append_nil] at hleaves
    exact hleaves
  | t :: u :: rest => rw [hm] at hlen; simp at hlen

theorem buildTree_val (l : List ℚ) (h : l ≠ []) : (buildTree l).val = (pwLoop l).headD 0 := by
  have hval := treeLoop_map_val (l.map PTree.leaf)
  rw [List.map_map] at hval
  have hmapval : l.map (PTree.val ∘ PTree.leaf) = l := by
    have hid : PTree.val ∘ PTree.leaf = id := rfl
    rw [hid, List.map_id]
  rw [hmapval] at hval
  have hlen := treeLoop_length (l.map PTree.leaf) (by simpa using h)
  unfold buildTree
  match hm : treeLoop (l.map PTree.leaf) with
  | [] => rw [hm] at hlen; simp at hlen
  | [t] =>
    rw [hm] at hval
    rw [hval]
    rfl
  | t :: u :: rest => rw [hm] at hlen; simp at hlen

theorem pwLoop_eq_single (l : List ℚ) (h : l ≠ []) : ∃ x, pwLoop l = [x] := by
  exact List.length_eq_one.mp (pwLoop_length l h)

/-! ## Expression trees

Embedding of heyoka's symbolic `expression` type restricted to the node
kinds constructed by the N-body builders in `src/src/nbody.cpp`: numeric
constants, indexed parameters (`par[i]`), state variables, the four binary
operators, `pow`, `square` and unary negation.  The source names its
state variables by the strings `"x_" + i`, `"y_" + i`, …, `"vz_" + i`
(nbody.cpp lines 56-66); since that naming is injective in the pair
(axis, body index), a variable is embedded as such a pair. -/

inductive Ax where
  | x | y | z | vx | vy | vz
deriving DecidableEq, Repr

inductive Ex where
  | num (q : ℚ)
  | par (i : ℕ)
  | var (a : Ax) (i : ℕ)
  | add (a b : Ex)
  | sub (a b : Ex)
  | mul (a b : Ex)
  | div (a b : Ex)
  | pw (b e : Ex)
  | square (a : Ex)
  | neg (a : Ex)
deriving DecidableEq, Repr

/-- The set of state variables occurring in an expression. -/
def Ex.vars : Ex → Finset (Ax × ℕ)
  | .num _ => ∅
  | .par _ => ∅
  | .var a i => {(a, i)}
  | .add a b => a.vars ∪ b.vars
  | .sub a b => a.vars ∪ b.vars
  | .mul a b => a.vars ∪ b.vars
  | .div a b => a.vars ∪ b.vars
  | .pw a b => a.vars ∪ b.vars
  | .square a => a.vars
  | .neg a => a.vars

/-- The set of numeric constants occurring in an expression. -/
def Ex.numConsts : Ex → Finset ℚ
  | .num q => {q}
  | .par _ => ∅
  | .var _ _ => ∅
  | .add a b => a.numConsts ∪ b.numConsts
  | .sub a b => a.numConsts ∪ b.numConsts
  | .mul a b => a.numConsts ∪ b.numConsts
  | .div a b => a.numConsts ∪ b.numConsts
  | .pw a b => a.numConsts ∪ b.numConsts
  | .square a => a.numConsts
  | .neg a => a.numConsts

/-- The set of parameter indices occurring in an expression. -/
def Ex.parIdxs : Ex → Finset ℕ
  | .num _ => ∅
  | .par i => {i}
  | .var _ _ => ∅
  | .add a b => a.parIdxs ∪ b.parIdxs
  | .sub a b => a.parIdxs ∪ b.parIdxs
  | .mul a b => a.parIdxs ∪ b.parIdxs
  | .div a b => a.parIdxs ∪ b.parIdxs
  | .pw a b => a.parIdxs ∪ b.parIdxs
  | .square a => a.parIdxs
  | .neg a => a.parIdxs

/-! ### Pairwise summation over expressions

Modelled from the spec: the expression-level `pairwise_sum` used by the
N-body builders is declared but not implemented under `src/` (the
`double` overload in the benchmark file implements the identical
algorithm).  The spec's pairwise summation contract (§4.2) prescribes
the same adjacent-pair reduction with the odd trailing operand carried
over, so the embedding reuses that loop shape over expression nodes. -/

/-- One adjacent-pair round over expressions. -/
def pwRoundEx : List Ex → List Ex
  | [] => []
  | [e] => [e]
  | e :: f :: rest => .add e f :: pwRoundEx rest

theorem pwRoundEx_length (l : List Ex) : (pwRoundEx l).length = (l.length + 1) / 2 := by
  match l with
  | [] => rfl
  | [e] => simp [pwRoundEx]
  | e :: f :: rest =>
    simp only [pwRoundEx, List.length_cons, pwRoundEx_length rest]
    omega

/-- The reduction loop over expressions, fuel-indexed as in `pwLoopGo`. -/
def pwLoopExGo : ℕ → List Ex → List Ex
  | 0, l => l
  | fuel + 1, l => if l.length ≤ 1 then l else pwLoopExGo fuel (pwRoundEx l)

/-- The reduction loop over expressions. -/
def pwLoopEx (l : List Ex) : List Ex := pwLoopExGo l.length l

/-- Expression-level pairwise sum of a (possibly empty) operand list. -/
def pairwiseSumEx (l : List Ex) : Ex :=
  (pwLoopEx l).headD (.num 0)

/-- Union of `f` over a list of expressions. -/
def listSup {α : Type} [DecidableEq α] (f : Ex → Finset α) (l : List Ex) : Finset α :=
  l.foldr (fun e s => f e ∪ s) ∅

theorem mem_listSup {α : Type} [DecidableEq α] (f : Ex → Finset α) (l : List Ex)
    (e : Ex) (he : e ∈ l) : f e ⊆ listSup f l := by
  induction l with
  | nil => simp at he
  | cons a l ih =>
    rcases List.mem_cons.mp he with h | h
    · subst h
      exact Finset.subset_union_left
    · exact (ih h).trans Finset.subset_union_right

theorem pwRoundEx_listSup {α : Type} [DecidableEq α] (f : Ex → Finset α)
    (hf : ∀ a b, f (.add a b) ⊆ f a ∪ f b) (l : List Ex) :
    listSup f (pwRoundEx l) ⊆ listSup f l := by
  match l with
  | [] => exact subset_refl _
  | [e] => exact subset_refl _
  | e :: g :: rest =>
    show listSup f (.add e g :: pwRoundEx rest) ⊆ _
    intro v hv
    simp only [listSup, List.foldr_cons] at hv ⊢
    rcases Finset.mem_union.mp hv with hv | hv
    · rcases Finset.mem_union.mp (hf e g hv) with hv | hv
      · exact Finset.mem_union_left _ hv
      · exact Finset.mem_union_right _ (Finset.mem_union_left _ hv)
    · have := pwRoundEx_listSup f hf rest hv
      exact Finset.mem_union_right _ (Finset.mem_union_right _ this)

theorem pwLoopExGo_listSup {α : Type} [DecidableEq α] (f : Ex → Finset α)
    (hf : ∀ a b, f (.add a b) ⊆ f a ∪ f b) (fuel : ℕ) : ∀ l : List Ex,
    listSup f (pwLoopExGo fuel l) ⊆ listSup f l := by
  induction fuel with
  | zero => intro l; exact subset_refl _
  | succ fuel ih =>
    intro l
    simp only [pwLoopExGo]
    split
    · exact subset_refl _
    · exact (ih (pwRoundEx l)).trans (pwRoundEx_listSup f hf l)

theorem pwLoopEx_listSup {α : Type} [DecidableEq α] (f : Ex → Finset α)
    (hf : ∀ a b, f (.add a b) ⊆ f a ∪ f b) (l : List Ex) :
    listSup f (pwLoopEx l) ⊆ listSup f l :=
  pwLoopExGo_listSup f hf _ _

theorem pwRoundEx_ne_nil (l : List Ex) (h : l ≠ []) : pwRoundEx l ≠ [] := by
  match l with
  | [] => exact absurd rfl h
  | [e] => simp [pwRoundEx]
  | e :: g :: rest => simp [pwRoundEx]

theorem pwLoopExGo_ne_nil (fuel : ℕ) : ∀ l : List Ex, l ≠ [] →
    pwLoopExGo fuel l ≠ [] := by
  induction fuel with
  | zero => intro l h; exact h
  | succ fuel ih =>
    intro l h
    simp only [pwLoopExGo]
    split
    · exact h
    · exact ih (pwRoundEx l) (pwRoundEx_ne_nil l h)

theorem pwLoopEx_ne_nil (l : List Ex) (h : l ≠ []) : pwLoopEx l ≠ [] :=
  pwLoopExGo_ne_nil _ _ h

theorem pairwiseSumEx_leafy {α : Type} [DecidableEq α] (f : Ex → Finset α)
    (hf : ∀ a b, f (.add a b) ⊆ f a ∪ f b) (l : List Ex) (h : l ≠ []) :
    f (pairwiseSumEx l) ⊆ listSup f l := by
  unfold pairwiseSumEx
  have hne := pwLoopEx_ne_nil l h
  match hm : pwLoopEx l with
  | [] => exact absurd hm hne
  | e :: rest =>
    refine subset_trans ?_ (pwLoopEx_listSup f hf l)
    rw [hm]
    exact mem_listSup f (e :: rest) e (by simp)

/-! ## N-body system builders

Embedding of `make_nbody_sys_fixed_masses` and `make_nbody_sys_par_masses`
from `src/src/nbody.cpp`.  An equation is the pair of the primed state
variable and its right-hand-side expression; the `x/y/z_acc` accumulator
vectors become an index-to-term-list map. -/

/-- One ODE equation: `prime(lhs variable) = rhs`. -/
abbrev Eqn := (Ax × ℕ) × Ex

/-- The `x_acc` / `y_acc` / `z_acc` accumulators (nbody.cpp lines 74-77). -/
structure AccSt where
  xa : ℕ → List Ex
  ya : ℕ → List Ex
  za : ℕ → List Ex

def AccSt.empty : AccSt := ⟨fun _ => [], fun _ => [], fun _ => []⟩

/-- `x_acc[j].push_back(tx)` (and the y/z analogues). -/
def AccSt.push (st : AccSt) (j : ℕ) (tx ty tz : Ex) : AccSt where
  xa := fun k => if k = j then st.xa k ++ [tx] else st.xa k
  ya := fun k => if k = j then st.ya k ++ [ty] else st.ya k
  za := fun k => if k = j then st.za k ++ [tz] else st.za k

/-- `diff_x = x_vars[j] - x_vars[i]`. -/
def diffX (i j : ℕ) : Ex := .sub (.var .x j) (.var .x i)

def diffY (i j : ℕ) : Ex := .sub (.var .y j) (.var .y i)

def diffZ (i j : ℕ) : Ex := .sub (.var .z j) (.var .z i)

/-- `r_m3 = pow(square(diff_x) + square(diff_y) + square(diff_z), -3/2)`. -/
def rM3 (i j : ℕ) : Ex :=
  .pw (.add (.add (.square (diffX i j)) (.square (diffY i j))) (.square (diffZ i j)))
    (.num (-3 / 2))

/-- Body of the inner `j` loop, restricted branch (nbody.cpp lines 118-151). -/
def innerFixedR (G : ℚ) (masses : List ℚ) (nm i : ℕ) (st : AccSt) (j : ℕ) : AccSt :=
  if j < nm then
    -- body j is massive: mutual interaction
    let facj := Ex.mul (.num (G * masses.getD j 0)) (rM3 i j)
    let cij := Ex.num (-(masses.getD i 0) / masses.getD j 0)
    let st1 := st.push i (.mul (diffX i j) facj) (.mul (diffY i j) facj) (.mul (diffZ i j) facj)
    st1.push j (.mul (.mul (diffX i j) facj) cij) (.mul (.mul (diffY i j) facj) cij)
      (.mul (.mul (diffZ i j) facj) cij)
  else
    -- body j is massless: acceleration from massive body i only
    let fac := Ex.mul (.num (-(G * masses.getD i 0))) (rM3 i j)
    st.push j (.mul (diffX i j) fac) (.mul (diffY i j) fac) (.mul (diffZ i j) fac)

/-- Body of the outer `i` loop over massive bodies, restricted branch
(nbody.cpp lines 107-157): emit the position primes, accumulate the
inner loop, then emit the velocity primes as pairwise sums. -/
def outerFixedR (G : ℚ) (masses : List ℚ) (n nm : ℕ) (acc : List Eqn × AccSt) (i : ℕ) :
    List Eqn × AccSt :=
  let eqs0 := acc.1 ++ [((.x, i), .var .vx i), ((.y, i), .var .vy i), ((.z, i), .var .vz i)]
  let st := (List.range' (i + 1) (n - (i + 1))).foldl (innerFixedR G masses nm i) acc.2
  (eqs0 ++ [((.vx, i), pairwiseSumEx (st.xa i)), ((.vy, i), pairwiseSumEx (st.ya i)),
      ((.vz, i), pairwiseSumEx (st.za i))], st)

/-- Body of the trailing loop over massless bodies (nbody.cpp lines
162-170 and 322-330): position primes plus the already-accumulated
accelerations. -/
def tailMassless (st : AccSt) (eqs : List Eqn) (i : ℕ) : List Eqn :=
  eqs ++ [((.x, i), .var .vx i), ((.y, i), .var .vy i), ((.z, i), .var .vz i),
    ((.vx, i), pairwiseSumEx (st.xa i)), ((.vy, i), pairwiseSumEx (st.ya i)),
    ((.vz, i), pairwiseSumEx (st.za i))]

/-- Body of the inner `j` loop, general branch (nbody.cpp lines 183-215). -/
def innerFixedG (G : ℚ) (masses : List ℚ) (i : ℕ) (st : AccSt) (j : ℕ) : AccSt :=
  if masses.getD j 0 = 0 then
    let fac := Ex.mul (.num (-(G * masses.getD i 0))) (rM3 i j)
    st.push j (.mul (diffX i j) fac) (.mul (diffY i j) fac) (.mul (diffZ i j) fac)
  else
    let facj := Ex.mul (.num (G * masses.getD j 0)) (rM3 i j)
    let cij := Ex.num (-(masses.getD i 0) / masses.getD j 0)
    let st1 := st.push i (.mul (diffX i j) facj) (.mul (diffY i j) facj) (.mul (diffZ i j) facj)
    st1.push j (.mul (.mul (diffX i j) facj) cij) (.mul (.mul (diffY i j) facj) cij)
      (.mul (.mul (diffZ i j) facj) cij)

/-- Body of the outer `i` loop, general branch (nbody.cpp lines 172-221). -/
def outerFixedG (G : ℚ) (masses : List ℚ) (n : ℕ) (acc : List Eqn × AccSt) (i : ℕ) :
    List Eqn × AccSt :=
  let eqs0 := acc.1 ++ [((.x, i), .var .vx i), ((.y, i), .var .vy i), ((.z, i), .var .vz i)]
  let st := (List.range' (i + 1) (n - (i + 1))).foldl (innerFixedG G masses i) acc.2
  (eqs0 ++ [((.vx, i), pairwiseSumEx (st.xa i)), ((.vy, i), pairwiseSumEx (st.ya i)),
      ((.vz, i), pairwiseSumEx (st.za i))], st)

/-- `n_fc_massive` (nbody.cpp lines 85-89): the number of leading
non-zero masses. -/
def nMassiveOf (masses : List ℚ) : ℕ :=
  (masses.takeWhile (fun q => decide (q ≠ 0))).length

/-- `n_fc_massless` (nbody.cpp lines 94-97): the number of zero masses
following the leading non-zero block. -/
def nMasslessOf (masses : List ℚ) : ℕ :=
  ((masses.drop (nMassiveOf masses)).takeWhile (fun q => decide (q = 0))).length

/-- The restricted-problem construction (nbody.cpp lines 100-170). -/
def fixedRestricted (n : ℕ) (G : ℚ) (masses : List ℚ) : List Eqn :=
  (List.range' (nMassiveOf masses) (n - nMassiveOf masses)).foldl
    (tailMassless ((List.range (nMassiveOf masses)).foldl
      (outerFixedR G masses n (nMassiveOf masses)) ([], AccSt.empty)).2)
    ((List.range (nMassiveOf masses)).foldl
      (outerFixedR G masses n (nMassiveOf masses)) ([], AccSt.empty)).1

/-- The general construction (nbody.cpp lines 171-222). -/
def fixedGeneral (n : ℕ) (G : ℚ) (masses : List ℚ) : List Eqn :=
  ((List.range n).foldl (outerFixedG G masses n) ([], AccSt.empty)).1

/-- Embedding of `make_nbody_sys_fixed_masses` (nbody.cpp lines 40-225):
size check first; count the leading non-zero masses and the following
zero masses to detect the restricted problem; then run the appropriate
pair of loops. -/
def make_nbody_sys_fixed_masses (n : ℕ) (G : ℚ) (masses : List ℚ) :
    Except String (List Eqn) :=
  if masses.length ≠ n then
    .error "Inconsistent sizes detected while creating an N-body system"
  else if nMasslessOf masses ≠ 0 ∧ nMassiveOf masses + nMasslessOf masses = n then
    .ok (fixedRestricted n G masses)
  else
    .ok (fixedGeneral n G masses)

/-- Body of the inner `j` loop of the parametric-masses builder
(nbody.cpp lines 278-311): masses enter as `par[i]` references. -/
def innerPar (G : ℚ) (nm i : ℕ) (st : AccSt) (j : ℕ) : AccSt :=
  if j < nm then
    let facj := Ex.mul (.mul (.num G) (.par j)) (rM3 i j)
    let cij := Ex.div (.neg (.par i)) (.par j)
    let st1 := st.push i (.mul (diffX i j) facj) (.mul (diffY i j) facj) (.mul (diffZ i j) facj)
    st1.push j (.mul (.mul (diffX i j) facj) cij) (.mul (.mul (diffY i j) facj) cij)
      (.mul (.mul (diffZ i j) facj) cij)
  else
    let fac := Ex.mul (.mul (.num (-G)) (.par i)) (rM3 i j)
    st.push j (.mul (diffX i j) fac) (.mul (diffY i j) fac) (.mul (diffZ i j) fac)

/-- Body of the outer `i` loop of the parametric-masses builder
(nbody.cpp lines 267-317). -/
def outerPar (G : ℚ) (n nm : ℕ) (acc : List Eqn × AccSt) (i : ℕ) : List Eqn × AccSt :=
  let eqs0 := acc.1 ++ [((.x, i), .var .vx i), ((.y, i), .var .vy i), ((.z, i), .var .vz i)]
  let st := (List.range' (i + 1) (n - (i + 1))).foldl (innerPar G nm i) acc.2
  (eqs0 ++ [((.vx, i), pairwiseSumEx (st.xa i)), ((.vy, i), pairwiseSumEx (st.ya i)),
      ((.vz, i), pairwiseSumEx (st.za i))], st)

/-- The parametric-masses construction (nbody.cpp lines 239-332). -/
def parSys (n : ℕ) (G : ℚ) (n_massive : ℕ) : List Eqn :=
  (List.range' n_massive (n - n_massive)).foldl
    (tailMassless ((List.range n_massive).foldl (outerPar G n n_massive)
      ([], AccSt.empty)).2)
    ((List.range n_massive).foldl (outerPar G n n_massive) ([], AccSt.empty)).1

/-- Embedding of `make_nbody_sys_par_masses` (nbody.cpp lines 227-333). -/
def make_nbody_sys_par_masses (n : ℕ) (G : ℚ) (n_massive : ℕ) :
    Except String (List Eqn) :=
  if n_massive > n then
    .error "The number of massive bodies cannot be larger than the total number of bodies"
  else
    .ok (parSys n G n_massive)

/-! ## Mascon dynamics squared distance

Embedding of the `r2` computation inside `mascon_dynamics::operator()`
(`src/benchmark/mascon_model_itokawa.cpp` lines 94-96).  The file-scope
array `mascon_points_itokawa` is passed explicitly as `filePts`; the
member `m_mascon_points` (copied from the constructor argument, lines
77-85) is `objPts`.  Line 96 of the source reads the z-coordinate of the
i-th point once from the file-scope array and once from the member. -/

def masconR2code (filePts objPts : List (ℚ × ℚ × ℚ)) (x0 x1 x2 : ℚ) (i : ℕ) : ℚ :=
  let P := objPts.getD i (0, 0, 0)
  let F := filePts.getD i (0, 0, 0)
  (x0 - P.1) * (x0 - P.1) + (x1 - P.2.1) * (x1 - P.2.1) + (x2 - F.2.2) * (x2 - P.2.2)

/-- What claim C1 asserts the computation to be: the squared distance to
the i-th mascon point taken exclusively from the member array
`m_mascon_points` (this is also the formula used consistently in
`compute_energy` and `make_mascon_system` in the same file). -/
def masconR2member (objPts : List (ℚ × ℚ × ℚ)) (x0 x1 x2 : ℚ) (i : ℕ) : ℚ :=
  let P := objPts.getD i (0, 0, 0)
  (x0 - P.1) * (x0 - P.1) + (x1 - P.2.1) * (x1 - P.2.1) + (x2 - P.2.2) * (x2 - P.2.2)

/-! ## random_elliptic_state

Embedding of `random_elliptic_state` (`src/src/nbody.cpp` lines 352-464).
A `double` is embedded as an exact rational extended with the two
infinities and NaN; the subtraction `ub - lb` in the range-overflow
checks is idealized as exact rational subtraction of the (finite, by the
time those checks run) endpoints.  The largest finite double and the
double closest to π (`boost::math::constants::pi<double>()`) appear as
their exact rational values. -/

/-- An IEEE double value, idealized over exact rationals. -/
inductive Dbl where
  | fin (q : ℚ)
  | pinf
  | ninf
  | nan
deriving DecidableEq, Repr

def Dbl.isFinite : Dbl → Bool
  | .fin _ => true
  | _ => false

/-- IEEE `<`: any comparison involving NaN is false. -/
def Dbl.lt : Dbl → Dbl → Bool
  | .fin a, .fin b => decide (a < b)
  | .fin _, .pinf => true
  | .ninf, .fin _ => true
  | .ninf, .pinf => true
  | _, _ => false

/-- The rational payload of a finite double (only read after a
finiteness check has passed). -/
def Dbl.val : Dbl → ℚ
  | .fin q => q
  | _ => 0

/-- `std::numeric_limits<double>::max() = (2^53 - 1) · 2^971`. -/
def dmax : ℚ := (2 ^ 53 - 1) * 2 ^ 971

/-- The double nearest π. -/
def piDbl : ℚ := 884279719003555 / 2 ^ 48

/-- The two exception kinds thrown by `random_elliptic_state`. -/
inductive RESErr where
  | invalidArgument
  | overflowError
deriving DecidableEq, Repr

/-- The `min`/`max` pairs for a, e, i, om, Om, f (in this order). -/
structure Bounds6 where
  a : Dbl × Dbl
  e : Dbl × Dbl
  inc : Dbl × Dbl
  om : Dbl × Dbl
  Om : Dbl × Dbl
  f : Dbl × Dbl
deriving DecidableEq, Repr

/-- One step of the generic bounds loop (lines 364-372): finite
endpoints with `ub > lb`. -/
def boundOK (b : Dbl × Dbl) : Bool :=
  b.1.isFinite && b.2.isFinite && Dbl.lt b.1 b.2

def Bounds6.list (B : Bounds6) : List (Dbl × Dbl) :=
  [B.a, B.e, B.inc, B.om, B.Om, B.f]

/-- The validation prefix of `random_elliptic_state` (lines 357-412), as
an `Except` classifying which exception (if any) is thrown.  The checks
run in source order: mu, the generic bounds loop, `a_min > 0`, the
semi-major-axis range-overflow check, the eccentricity range, the
inclination range, then the om/Om/f range-overflow checks. -/
def resChecks (mu : Dbl) (B : Bounds6) : Except RESErr Unit :=
  if mu.isFinite = false ∨ mu.val ≤ 0 then .error .invalidArgument
  else if ¬ (B.list.all boundOK = true) then .error .invalidArgument
  else if B.a.1.val ≤ 0 then .error .invalidArgument
  else if dmax < B.a.2.val - B.a.1.val then .error .overflowError
  else if B.e.1.val ≤ 0 ∨ 1 < B.e.2.val then .error .invalidArgument
  else if B.inc.1.val ≤ 0 ∨ piDbl < B.inc.2.val then .error .invalidArgument
  else if dmax < B.om.2.val - B.om.1.val then .error .overflowError
  else if dmax < B.Om.2.val - B.Om.1.val then .error .overflowError
  else if dmax < B.f.2.val - B.f.1.val then .error .overflowError
  else .ok ()

/-! ### The Mersenne twister

`std::mt19937` (an external standard-library component) embedded as pure
32-bit integer arithmetic on naturals: the standard MT19937 seeding,
twist and tempering. -/

/-- Generator state: 624 32-bit words plus the extraction index. -/
structure MT where
  state : Array ℕ
  idx : ℕ
deriving DecidableEq, Repr

/-- `rng.seed(seed)`: the standard MT19937 state initialization. -/
def mtSeed (seed : ℕ) : MT :=
  let arr := (List.range 624).foldl
    (fun (a : Array ℕ) i =>
      if i = 0 then a.push (seed % 2 ^ 32)
      else
        let prev := a.getD (i - 1) 0
        a.push ((1812433253 * (prev ^^^ (prev >>> 30)) + i) % 2 ^ 32))
    #[]
  ⟨arr, 624⟩

/-- The MT19937 twist: regenerate the 624-word state. -/
def mtTwist (a : Array ℕ) : Array ℕ :=
  (List.range 624).foldl
    (fun arr i =>
      let x := ((arr.getD i 0) &&& 0x80000000) + ((arr.getD ((i + 1) % 624) 0) &&& 0x7FFFFFFF)
      let xA := if x % 2 = 1 then (x >>> 1) ^^^ 0x9908B0DF else x >>> 1
      arr.setD i ((arr.getD ((i + 397) % 624) 0) ^^^ xA))
    a

/-- The MT19937 output tempering. -/
def mtTemper (y : ℕ) : ℕ :=
  let y1 := y ^^^ (y >>> 11)
  let y2 := y1 ^^^ ((y1 <<< 7) &&& 0x9D2C5680)
  let y3 := y2 ^^^ ((y2 <<< 15) &&& 0xEFC60000)
  (y3 ^^^ (y3 >>> 18)) % 2 ^ 32

/-- Draw one 32-bit word, twisting when the state is exhausted. -/
def mtNext (m : MT) : ℕ × MT :=
  if m.idx ≥ 624 then
    let arr := mtTwist m.state
    (mtTemper (arr.getD 0 0), ⟨arr, 1⟩)
  else
    (mtTemper (m.state.getD m.idx 0), ⟨m.state, m.idx + 1⟩)

/-- `std::uniform_real_distribution` draw over `[lo, hi)`, idealized as
an affine map of one generator word (the library's exact
`generate_canonical` scheme is implementation-defined; only its
determinism as a function of the generator state matters here). -/
def drawUniform (lo hi : ℚ) (m : MT) : ℚ × MT :=
  let (z, m') := mtNext m
  (lo + (hi - lo) * (z : ℚ) / 2 ^ 32, m')

/-- The transcendental functions used by the cartesian conversion
(lines 434-438), kept abstract: the conversion is a pure function of the
drawn elements whatever interpretation these receive. -/
structure TrigModel where
  sin : ℚ → ℚ
  cos : ℚ → ℚ
  tan : ℚ → ℚ
  atan : ℚ → ℚ
  sqrt : ℚ → ℚ

/-- Orbital elements to cartesian state (lines 440-463). -/
def oeToCartesian (T : TrigModel) (mu a e inc om Om f : ℚ) : List ℚ :=
  let E := 2 * T.atan (T.sqrt ((1 - e) / (1 + e)) * T.tan (f / 2))
  let n := T.sqrt (mu / (a * a * a))
  let q1 := a * (T.cos E - e)
  let q2 := a * T.sqrt (1 - e * e) * T.sin E
  let q3 : ℚ := 0
  let vq1 := -n * a * T.sin E / (1 - e * T.cos E)
  let vq2 := n * a * T.sqrt (1 - e * e) * T.cos E / (1 - e * T.cos E)
  let vq3 : ℚ := 0
  let r11 := T.cos Om * T.cos om - T.sin Om * T.cos inc * T.sin om
  let r12 := -(T.cos Om) * T.sin om - T.sin Om * T.cos inc * T.cos om
  let r13 := T.sin Om * T.sin inc
  let r21 := T.sin Om * T.cos om + T.cos Om * T.cos inc * T.sin om
  let r22 := -(T.sin Om) * T.sin om + T.cos Om * T.cos inc * T.cos om
  let r23 := -(T.cos Om) * T.sin inc
  let r31 := T.sin inc * T.sin om
  let r32 := T.sin inc * T.cos om
  let r33 := T.cos inc
  [r11 * q1 + r12 * q2 + r13 * q3, r21 * q1 + r22 * q2 + r23 * q3,
    r31 * q1 + r32 * q2 + r33 * q3, r11 * vq1 + r12 * vq2 + r13 * vq3,
    r21 * vq1 + r22 * vq2 + r23 * vq3, r31 * vq1 + r32 * vq2 + r33 * vq3]

/-- Embedding of `random_elliptic_state` with the thread-local generator
state passed explicitly: `rngIn` is the state the `static thread_local
std::mt19937 rng` holds when the call begins.  Line 416 (`rng.seed(...)`)
replaces that state with the seeded one before any draw, which is why
`rngIn` is discarded.  Returns the six-element cartesian state and the
generator state left behind for the next call. -/
def random_elliptic_state (T : TrigModel) (mu : Dbl) (B : Bounds6) (seed : ℕ)
    (rngIn : MT) : Except RESErr (List ℚ × MT) :=
  match resChecks mu B with
  | .error e => .error e
  | .ok _ =>
    let rng0 := mtSeed seed
    let (a, r1) := drawUniform B.a.1.val B.a.2.val rng0
    let (e, r2) := drawUniform B.e.1.val B.e.2.val r1
    let (inc, r3) := drawUniform B.inc.1.val B.inc.2.val r2
    let (om, r4) := drawUniform B.om.1.val B.om.2.val r3
    let (Om, r5) := drawUniform B.Om.1.val B.Om.2.val r4
    let (f, r6) := drawUniform B.f.1.val B.f.2.val r5
    .ok (oeToCartesian T mu.val a e inc om Om f, r6)

/-! ## Taylor jet emitter

Modelled from the spec: the implementation of `add_taylor_jet_batch` /
the jet emitter (spec §4.3-§4.4) is not under `src/` — only its unit
tests (`src/test/taylor_mul.cpp`) are.  The model follows the spec's
words: a decomposition whose first `S` entries are the state variables
and whose intermediate entries are elementary multiplications of earlier
entries (the only operation the claims exercise); the emitter seeds
order 0 from the caller's state, computes order-0 values of the
intermediates by direct evaluation, and for `k ≥ 1` computes each state
coefficient by the ODE normalisation `x^(k) = f^(k-1)/k` and each
product coefficient by the recurrence `a^(k) = Σ_{j=0..k} b^(j) c^(k-j)`
(spec §4.3, multiplication row). -/

/-- A Taylor decomposition with multiplication intermediates: `S` state
entries head the sequence; intermediate `S + m` multiplies the two
earlier entries `ops[m]`; `derivs[i]` is the index of the entry holding
the RHS of state variable `i`. -/
structure TDec where
  S : ℕ
  ops : List (ℕ × ℕ)
  derivs : List ℕ

/-- Order-0 row: the caller's state followed by the evaluated
intermediates. -/
def tRow0 (d : TDec) (init : List ℚ) : List ℚ :=
  d.ops.foldl (fun row op => row ++ [row.getD op.1 0 * row.getD op.2 0]) init

/-- Row `K = rows.length` from the previous rows `0 … K-1`: state entry
`i` is `rows[K-1][derivs[i]] / K`; each intermediate is the
multiplication recurrence, where the order-`K` coefficients of earlier
entries are read from the row under construction. -/
def tRowSucc (d : TDec) (rows : List (List ℚ)) : List ℚ :=
  let K := rows.length
  let base := (List.range d.S).map
    (fun i => (rows.getD (K - 1) []).getD (d.derivs.getD i 0) 0 / K)
  d.ops.foldl (fun row op =>
    row ++ [∑ j in Finset.range (K + 1),
      (if j < K then (rows.getD j []).getD op.1 0 else row.getD op.1 0) *
      (if K - j < K then (rows.getD (K - j) []).getD op.2 0 else row.getD op.2 0)]) base

/-- Rows 0 … k of the jet of one lane. -/
def tRows (d : TDec) (init : List ℚ) : ℕ → List (List ℚ)
  | 0 => [tRow0 d init]
  | k + 1 => let rs := tRows d init k; rs ++ [tRowSucc d rs]

/-- The `k`-th Taylor coefficient of decomposition entry `i`. -/
def tCoeff (d : TDec) (init : List ℚ) (k i : ℕ) : ℚ :=
  ((tRows d init k).getD k []).getD i 0

/-- The decomposition of the two-dimensional system
`{x' = x·y, y' = y·x}` from the variable/variable tests of
`src/test/taylor_mul.cpp`. -/
def mulSysDec : TDec := ⟨2, [(0, 1), (1, 0)], [2, 3]⟩

/-- The (`p+1`)·S·B-entry jet slab written in place by the compiled jet
function, modelled from the spec (§4.4 with §6 layout: coordinate-major,
lane-minor): the caller's order-0 state occupies the first `S·B`
entries; the emitter writes the rows of orders `k = 1 … p` at offset
`k·S·B`, leaving order 0 untouched. -/
def jetSlab (d : TDec) (p B : ℕ) (slab : List ℚ) : List ℚ :=
  let init := fun l => (List.range d.S).map (fun i => slab.getD (i * B + l) 0)
  (List.range p).foldl (fun sl k =>
    (List.range d.S).foldl (fun sl2 i =>
      (List.range B).foldl (fun sl3 l =>
        sl3.set ((k + 1) * (d.S * B) + i * B + l) (tCoeff d (init l) (k + 1) i)) sl2) sl)
    slab

/-! ## func member-function wrappers

Modelled from the spec: the implementation of the `func` type-erasing
wrapper (heyoka's `func.cpp`) is not under `src/` — only its unit tests
(`src/test/func.cpp`) are.  The model reflects the behaviour those tests
pin down, and the spec's InvalidInput error kind (§7): argument
validation happens in the wrapper before the wrapped implementation is
consulted, and a null return value from the implementation becomes an
invalid-argument error.  A wrapped implementation is `none` when the
user type does not provide the member (not-implemented), `some none`
when it returns a null pointer, and `some (some v)` when it returns the
value `v`. -/

inductive FuncErr where
  | invalidArgument
  | notImplemented
deriving DecidableEq, Repr

/-- `func::taylor_diff_*` wrapper (tests at func.cpp lines 113-146 and
444-459): arguments `(n_uvars, order, idx, batch_size)`. -/
def func_taylor_diff (impl : Option (Option ℕ)) (n_uvars order idx batch : ℕ) :
    Except FuncErr ℕ :=
  if batch = 0 then .error .invalidArgument
  else if n_uvars = 0 then .error .invalidArgument
  else if order = 0 then .error .invalidArgument
  else
    match impl with
    | none => .error .notImplemented
    | some none => .error .invalidArgument
    | some (some v) => .ok v

/-- `func::taylor_u_init_*` wrapper (tests at func.cpp lines 385-419):
argument `batch_size`. -/
def func_taylor_u_init (impl : Option (Option ℕ)) (batch : ℕ) : Except FuncErr ℕ :=
  if batch = 0 then .error .invalidArgument
  else
    match impl with
    | none => .error .notImplemented
    | some none => .error .invalidArgument
    | some (some v) => .ok v

/-- `func::taylor_c_diff_*` wrapper (tests at func.cpp lines 148-172 and
481-496): arguments `(n_uvars, batch_size)`. -/
def func_taylor_c_diff (impl : Option (Option ℕ)) (n_uvars batch : ℕ) :
    Except FuncErr ℕ :=
  if batch = 0 then .error .invalidArgument
  else if n_uvars = 0 then .error .invalidArgument
  else
    match impl with
    | none => .error .notImplemented
    | some none => .error .invalidArgument
    | some (some v) => .ok v

/-- The equation list of a successful system construction (empty on
error). -/
def okEqs (r : Except String (List Eqn)) : List Eqn :=
  r.toOption.getD []

/-! # Claim theorems -/

/-- **C1** (code bug).  `mascon_dynamics::operator()` does *not* compute
`r2` exclusively from the member array: line 96 reads the z-coordinate
of the i-th point from the file-scope `mascon_points_itokawa` array in
one of the two factors.  At a state with `x = (0,0,1)`, a member point
`(0,0,0)` and a file-scope point `(0,0,2)`, the code computes
`r2 = -1` (not even a nonnegative squared distance), while the
constructor-authoritative formula the claim asserts gives `r2 = 1`. -/
theorem mascon_r2_uses_file_scope_array :
    masconR2code [((0 : ℚ), 0, 2)] [((0 : ℚ), 0, 0)] 0 0 1 0 = -1 ∧
    masconR2member [((0 : ℚ), 0, 0)] 0 0 1 0 = 1 ∧
    masconR2code [((0 : ℚ), 0, 2)] [((0 : ℚ), 0, 0)] 0 0 1 0 ≠
      masconR2member [((0 : ℚ), 0, 0)] 0 0 1 0 := by
  refine ⟨?_, ?_, ?_⟩ <;> norm_num [masconR2code, masconR2member]

/-- **C2.**  On every non-empty operand list (below the size-limit
guard), `pairwise_sum` computes exactly the value of the pairing tree
whose in-order leaves are the operands and which is left-leaning; in
exact arithmetic that value is the sum of the operands, and a singleton
list returns its element unchanged. -/
theorem pairwise_sum_balanced_tree (l : List ℚ) (hne : l ≠ []) (hsz : l.length ≠ sizeMax) :
    pairwise_sum l = .ok (buildTree l).val ∧
    (buildTree l).leaves = l ∧
    (buildTree l).leftLeaning ∧
    (buildTree l).val = l.sum ∧
    (∀ a : ℚ, l = [a] → pairwise_sum l = .ok a) := by
  have h1 : pairwise_sum l = .ok ((pwLoop l).headD 0) := by
    unfold pairwise_sum
    rw [if_neg hsz, if_neg (by simpa [List.isEmpty_iff] using hne)]
  obtain ⟨x, hx⟩ := pwLoop_eq_single l hne
  have hval := buildTree_val l hne
  have hsum : (buildTree l).val = l.sum := by
    have hs := pwLoop_sum l
    rw [hx] at hs
    rw [hval, hx]
    simpa using hs
  refine ⟨by rw [h1, hval], buildTree_leaves l hne, buildTree_leftLeaning l, hsum, ?_⟩
  intro a ha
  subst ha
  rw [h1]
  have hone : pwLoop [a] = [a] := rfl
  rw [hone]
  rfl

theorem pairwise_sum_balanced_tree_witness :
    (([1, 2, 3] : List ℚ) ≠ [] ∧ ([1, 2, 3] : List ℚ).length ≠ sizeMax) ∧
    (pairwise_sum [1, 2, 3] = .ok (buildTree [1, 2, 3]).val ∧
      (buildTree [(1 : ℚ), 2, 3]).leaves = [1, 2, 3] ∧
      (buildTree [(1 : ℚ), 2, 3]).leftLeaning ∧
      (buildTree [(1 : ℚ), 2, 3]).val = ([1, 2, 3] : List ℚ).sum ∧
      (∀ a : ℚ, ([1, 2, 3] : List ℚ) = [a] → pairwise_sum [1, 2, 3] = .ok a)) :=
  ⟨⟨by decide, by decide⟩,
    pairwise_sum_balanced_tree [1, 2, 3] (by decide) (by decide)⟩

/-- **C6.**  `make_nbody_sys_fixed_masses` fails exactly when the masses
vector's size differs from `n` (the check precedes all equation
construction), and `make_nbody_sys_par_masses` fails exactly when
`n_massive > n`; on valid input both return a system. -/
theorem nbody_validation_iff (n : ℕ) (hn : 2 ≤ n) (G : ℚ) (masses : List ℚ)
    (n_massive : ℕ) :
    ((∃ msg, make_nbody_sys_fixed_masses n G masses = .error msg) ↔ masses.length ≠ n) ∧
    ((∃ msg, make_nbody_sys_par_masses n G n_massive = .error msg) ↔ n_massive > n) := by
  constructor
  · constructor
    · rintro ⟨msg, hmsg⟩
      by_contra hlen
      unfold make_nbody_sys_fixed_masses at hmsg
      rw [if_neg (not_not_intro hlen)] at hmsg
      split at hmsg <;> exact Except.noConfusion hmsg
    · intro h
      exact ⟨_, by unfold make_nbody_sys_fixed_masses; rw [if_pos h]⟩
  · constructor
    · rintro ⟨msg, hmsg⟩
      by_contra hgt
      unfold make_nbody_sys_par_masses at hmsg
      rw [if_neg hgt] at hmsg
      exact Except.noConfusion hmsg
    · intro h
      exact ⟨_, by unfold make_nbody_sys_par_masses; rw [if_pos h]⟩

theorem nbody_validation_iff_witness :
    (2 ≤ 2) ∧
    (((∃ msg, make_nbody_sys_fixed_masses 2 1 [1, 1] = .error msg) ↔
        ([(1 : ℚ), 1] : List ℚ).length ≠ 2) ∧
      ((∃ msg, make_nbody_sys_par_masses 2 1 1 = .error msg) ↔ 1 > 2)) :=
  ⟨by decide, nbody_validation_iff 2 (by decide) 1 [1, 1] 1⟩

/-- **C9.**  The `func` wrapper members reject a zero batch size, a zero
u-variable count and (for `taylor_diff`) a zero derivative order with an
invalid-argument error before consulting the wrapped implementation
(the result is the same for every implementation), and convert a null
return value from the wrapped implementation into an invalid-argument
error instead of returning it. -/
theorem func_wrapper_validation :
    (∀ impl n_uvars order idx,
      func_taylor_diff impl n_uvars order idx 0 = .error .invalidArgument) ∧
    (∀ impl order idx batch,
      func_taylor_diff impl 0 order idx batch = .error .invalidArgument) ∧
    (∀ impl n_uvars idx batch,
      func_taylor_diff impl n_uvars 0 idx batch = .error .invalidArgument) ∧
    (∀ impl, func_taylor_u_init impl 0 = .error .invalidArgument) ∧
    (∀ impl n_uvars, func_taylor_c_diff impl n_uvars 0 = .error .invalidArgument) ∧
    (∀ impl batch, func_taylor_c_diff impl 0 batch = .error .invalidArgument) ∧
    (∀ n_uvars order idx batch, n_uvars ≠ 0 → order ≠ 0 → batch ≠ 0 →
      func_taylor_diff (some none) n_uvars order idx batch = .error .invalidArgument) ∧
    (∀ batch, batch ≠ 0 →
      func_taylor_u_init (some none) batch = .error .invalidArgument) ∧
    (∀ n_uvars batch, n_uvars ≠ 0 → batch ≠ 0 →
      func_taylor_c_diff (some none) n_uvars batch = .error .invalidArgument) := by
  refine ⟨fun impl n o i => rfl, ?_, ?_, fun impl => rfl, ?_, ?_, ?_, ?_, ?_⟩
  · intro impl o i b
    unfold func_taylor_diff
    by_cases hb : b = 0 <;> simp [hb]
  · intro impl n i b
    unfold func_taylor_diff
    by_cases hb : b = 0 <;> by_cases hn : n = 0 <;> simp [hb, hn]
  · intro impl n
    unfold func_taylor_c_diff
    by_cases hn : n = 0 <;> simp [hn]
  · intro impl b
    unfold func_taylor_c_diff
    by_cases hb : b = 0 <;> simp [hb]
  · intro n o i b hn ho hb
    simp [func_taylor_diff, hn, ho, hb]
  · intro b hb
    simp [func_taylor_u_init, hb]
  · intro n b hn hb
    simp [func_taylor_c_diff, hn, hb]

theorem func_wrapper_validation_witness :
    (2 ≠ 0 ∧ 2 ≠ 0 ∧ 2 ≠ 0) ∧
    func_taylor_diff (some none) 2 2 2 2 = .error .invalidArgument :=
  ⟨⟨by decide, by decide, by decide⟩,
    func_wrapper_validation.2.2.2.2.2.2.1 2 2 2 2 (by decide) (by decide) (by decide)⟩

theorem dmax_pos : (0 : ℚ) < dmax := by norm_num [dmax]

theorem boundOK_fin (lo hi : ℚ) (h : lo < hi) : boundOK (.fin lo, .fin hi) = true := by
  simp [boundOK, Dbl.isFinite, Dbl.lt, h]

/-- **C7 counterexample.**  An input with a positive finite `mu`, all six
bounds finite with `ub > lb`, and an omega range wider than the largest
finite double — one of the four ranges the claim says forces
`overflow_error` — on which the validation nevertheless classifies the
input as invalid-argument, because the eccentricity-range check (here
failing, `e_min = -1/2 ≤ 0`) runs before the omega overflow check. -/
theorem resChecks_overflow_shadowed :
    ((Dbl.fin 1).isFinite = true ∧ 0 < (Dbl.fin 1).val) ∧
    (Bounds6.list ⟨(.fin 1, .fin 2), (.fin (-(1 / 2)), .fin (1 / 2)),
        (.fin (1 / 10), .fin (3 / 10)), (.fin (-dmax), .fin dmax),
        (.fin 0, .fin 1), (.fin 0, .fin 1)⟩).all boundOK = true ∧
    dmax < (Dbl.fin dmax).val - (Dbl.fin (-dmax)).val ∧
    resChecks (.fin 1) ⟨(.fin 1, .fin 2), (.fin (-(1 / 2)), .fin (1 / 2)),
        (.fin (1 / 10), .fin (3 / 10)), (.fin (-dmax), .fin dmax),
        (.fin 0, .fin 1), (.fin 0, .fin 1)⟩ = .error .invalidArgument := by
  have hd := dmax_pos
  refine ⟨⟨rfl, by norm_num [Dbl.val]⟩, ?_, ?_, ?_⟩
  · simp only [Bounds6.list, List.all_cons, List.all_nil, Bool.and_true]
    rw [boundOK_fin 1 2 (by norm_num), boundOK_fin (-(1 / 2)) (1 / 2) (by norm_num),
      boundOK_fin (1 / 10) (3 / 10) (by norm_num), boundOK_fin (-dmax) dmax (by linarith),
      boundOK_fin 0 1 (by norm_num)]
    rfl
  · show dmax < dmax - -dmax
    linarith
  · norm_num [resChecks, Bounds6.list, boundOK, Dbl.isFinite, Dbl.lt, Dbl.val, dmax]

/-- **C7 amended.**  For positive finite `mu` and finite bounds with
`ub > lb` throughout, `random_elliptic_state` throws `overflow_error`
exactly when the first failing check in the source's order is a
range-width check: either the semi-major-axis width exceeds the largest
finite double (with `a_min > 0`), or — the a-width, eccentricity and
inclination checks all passing — one of the omega, Omega or true-anomaly
widths exceeds it; it throws `invalid_argument` exactly when
`a_min ≤ 0`, or the a-width check passes and the eccentricity or
inclination range is invalid. -/
theorem resChecks_classification (mu : Dbl) (B : Bounds6)
    (hmu : mu.isFinite = true ∧ 0 < mu.val)
    (hb : B.list.all boundOK = true) :
    (resChecks mu B = .error .overflowError ↔
      (0 < B.a.1.val ∧
        (dmax < B.a.2.val - B.a.1.val ∨
          (B.a.2.val - B.a.1.val ≤ dmax ∧
            (0 < B.e.1.val ∧ B.e.2.val ≤ 1) ∧
            (0 < B.inc.1.val ∧ B.inc.2.val ≤ piDbl) ∧
            (dmax < B.om.2.val - B.om.1.val ∨ dmax < B.Om.2.val - B.Om.1.val ∨
              dmax < B.f.2.val - B.f.1.val))))) ∧
    (resChecks mu B = .error .invalidArgument ↔
      (B.a.1.val ≤ 0 ∨
        (B.a.2.val - B.a.1.val ≤ dmax ∧
          ¬((0 < B.e.1.val ∧ B.e.2.val ≤ 1) ∧
            (0 < B.inc.1.val ∧ B.inc.2.val ≤ piDbl))))) := by
  have h1 : ¬(mu.isFinite = false ∨ mu.val ≤ 0) := by
    rcases hmu with ⟨hf, hv⟩
    push_neg
    exact ⟨by simp [hf], hv⟩
  unfold resChecks
  rw [if_neg h1, if_neg (not_not_intro hb)]
  split_ifs with ha haw he hinc hom hOm hfw
  · refine ⟨iff_of_false (by simp) ?_, iff_of_true rfl (Or.inl ha)⟩
    rintro ⟨h0, -⟩
    exact absurd ha (not_le.mpr h0)
  · refine ⟨iff_of_true rfl ⟨not_le.mp ha, Or.inl haw⟩, iff_of_false (by simp) ?_⟩
    rintro (h0 | ⟨hle, -⟩)
    · exact ha h0
    · exact absurd haw (not_lt.mpr hle)
  · refine ⟨iff_of_false (by simp) ?_, iff_of_true rfl (Or.inr ⟨not_lt.mp haw, ?_⟩)⟩
    · rintro ⟨-, hAW | ⟨-, ⟨he1, he2⟩, -, -⟩⟩
      · exact haw hAW
      · rcases he with h | h <;> linarith
    · rintro ⟨⟨he1, he2⟩, -⟩
      rcases he with h | h <;> linarith
  · refine ⟨iff_of_false (by simp) ?_, iff_of_true rfl (Or.inr ⟨not_lt.mp haw, ?_⟩)⟩
    · rintro ⟨-, hAW | ⟨-, -, ⟨hi1, hi2⟩, -⟩⟩
      · exact haw hAW
      · rcases hinc with h | h <;> linarith
    · rintro ⟨-, ⟨hi1, hi2⟩⟩
      rcases hinc with h | h <;> linarith
  · push_neg at he hinc
    refine ⟨iff_of_true rfl ⟨not_le.mp ha, Or.inr ⟨not_lt.mp haw, ⟨he.1, he.2⟩,
      ⟨hinc.1, hinc.2⟩, Or.inl hom⟩⟩, iff_of_false (by simp) ?_⟩
    rintro (h0 | ⟨-, hno⟩)
    · exact ha h0
    · exact hno ⟨⟨he.1, he.2⟩, ⟨hinc.1, hinc.2⟩⟩
  · push_neg at he hinc
    refine ⟨iff_of_true rfl ⟨not_le.mp ha, Or.inr ⟨not_lt.mp haw, ⟨he.1, he.2⟩,
      ⟨hinc.1, hinc.2⟩, Or.inr (Or.inl hOm)⟩⟩, iff_of_false (by simp) ?_⟩
    rintro (h0 | ⟨-, hno⟩)
    · exact ha h0
    · exact hno ⟨⟨he.1, he.2⟩, ⟨hinc.1, hinc.2⟩⟩
  · push_neg at he hinc
    refine ⟨iff_of_true rfl ⟨not_le.mp ha, Or.inr ⟨not_lt.mp haw, ⟨he.1, he.2⟩,
      ⟨hinc.1, hinc.2⟩, Or.inr (Or.inr hfw)⟩⟩, iff_of_false (by simp) ?_⟩
    rintro (h0 | ⟨-, hno⟩)
    · exact ha h0
    · exact hno ⟨⟨he.1, he.2⟩, ⟨hinc.1, hinc.2⟩⟩
  · push_neg at he hinc
    refine ⟨iff_of_false (by simp) ?_, iff_of_false (by simp) ?_⟩
    · rintro ⟨-, hAW | ⟨-, -, -, hOMS⟩⟩
      · exact haw hAW
      · rcases hOMS with h | h | h
        exacts [hom h, hOm h, hfw h]
    · rintro (h0 | ⟨-, hno⟩)
      · exact ha h0
      · exact hno ⟨⟨he.1, he.2⟩, ⟨hinc.1, hinc.2⟩⟩

theorem resChecks_classification_witness :
    (((Dbl.fin 1).isFinite = true ∧ 0 < (Dbl.fin 1).val) ∧
      (Bounds6.list ⟨(.fin 1, .fin 2), (.fin (1 / 2), .fin (3 / 4)),
          (.fin (1 / 10), .fin (3 / 10)), (.fin (-dmax), .fin dmax),
          (.fin 0, .fin 1), (.fin 0, .fin 1)⟩).all boundOK = true) ∧
    resChecks (.fin 1) ⟨(.fin 1, .fin 2), (.fin (1 / 2), .fin (3 / 4)),
        (.fin (1 / 10), .fin (3 / 10)), (.fin (-dmax), .fin dmax),
        (.fin 0, .fin 1), (.fin 0, .fin 1)⟩ = .error .overflowError := by
  have hd := dmax_pos
  have hall : (Bounds6.list ⟨(.fin 1, .fin 2), (.fin (1 / 2), .fin (3 / 4)),
      (.fin (1 / 10), .fin (3 / 10)), (.fin (-dmax), .fin dmax),
      (.fin 0, .fin 1), (.fin 0, .fin 1)⟩).all boundOK = true := by
    simp only [Bounds6.list, List.all_cons, List.all_nil, Bool.and_true]
    rw [boundOK_fin 1 2 (by norm_num), boundOK_fin (1 / 2) (3 / 4) (by norm_num),
      boundOK_fin (1 / 10) (3 / 10) (by norm_num), boundOK_fin (-dmax) dmax (by linarith),
      boundOK_fin 0 1 (by norm_num)]
    rfl
  refine ⟨⟨⟨rfl, by norm_num [Dbl.val]⟩, hall⟩, ?_⟩
  refine (resChecks_classification (.fin 1) ⟨(.fin 1, .fin 2), (.fin (1 / 2), .fin (3 / 4)),
      (.fin (1 / 10), .fin (3 / 10)), (.fin (-dmax), .fin dmax),
      (.fin 0, .fin 1), (.fin 0, .fin 1)⟩
    ⟨rfl, by norm_num [Dbl.val]⟩ hall).1.mpr ?_
  refine ⟨by norm_num [Dbl.val], Or.inr ⟨?_, ⟨by norm_num [Dbl.val], by norm_num [Dbl.val]⟩,
    ⟨by norm_num [Dbl.val], by norm_num [Dbl.val, piDbl]⟩, Or.inl ?_⟩⟩
  · show (Dbl.fin 2).val - (Dbl.fin 1).val ≤ dmax
    simp only [Dbl.val]
    norm_num [dmax]
  · show dmax < (Dbl.fin dmax).val - (Dbl.fin (-dmax)).val
    simp only [Dbl.val]
    linarith

theorem getD_set_ne (l : List ℚ) (i j : ℕ) (a : ℚ) (h : i ≠ j) :
    (l.set i a).getD j 0 = l.getD j 0 := by
  simp [List.getD_eq_getElem?_getD, List.getElem?_set_ne h]

theorem foldl_getD_invar {β : Type} (g : List ℚ → β → List ℚ) (c : ℕ)
    (hg : ∀ sl b idx, idx < c → (g sl b).getD idx 0 = sl.getD idx 0)
    (L : List β) (sl : List ℚ) (idx : ℕ) (h : idx < c) :
    (L.foldl g sl).getD idx 0 = sl.getD idx 0 := by
  induction L generalizing sl with
  | nil => rfl
  | cons b L ih => rw [List.foldl_cons, ih (g sl b), hg sl b idx h]

/-- **C5.**  The jet function writes only rows of orders `k ≥ 1`
(at offsets `k·S·B` and beyond): after the call, the order-0 entries —
the first `S·B` slab values holding the caller's state — are exactly
what the caller stored there, for every order `p ≥ 1` and batch size
`B ≥ 1`. -/
theorem jet_preserves_order_zero (d : TDec) (p B : ℕ) (hp : 1 ≤ p) (hB : 1 ≤ B)
    (slab : List ℚ) (idx : ℕ) (hidx : idx < d.S * B) :
    (jetSlab d p B slab).getD idx 0 = slab.getD idx 0 := by
  unfold jetSlab
  refine foldl_getD_invar _ (d.S * B) ?_ _ _ _ hidx
  intro sl k idx1 h1
  refine foldl_getD_invar _ (d.S * B) ?_ _ _ _ h1
  intro sl2 i idx2 h2
  refine foldl_getD_invar _ (d.S * B) ?_ _ _ _ h2
  intro sl3 l idx3 h3
  apply getD_set_ne
  have hge : d.S * B ≤ (k + 1) * (d.S * B) := Nat.le_mul_of_pos_left _ (Nat.succ_pos k)
  omega

theorem jet_preserves_order_zero_witness :
    (1 ≤ 1 ∧ 0 < mulSysDec.S * 1) ∧
    (jetSlab mulSysDec 1 1 [2, 3, 0, 0]).getD 0 0 = ([2, 3, 0, 0] : List ℚ).getD 0 0 :=
  ⟨⟨le_refl 1, by norm_num [mulSysDec]⟩,
    jet_preserves_order_zero mulSysDec 1 1 (le_refl 1) (le_refl 1) [2, 3, 0, 0] 0
      (by norm_num [mulSysDec])⟩

theorem tRows_length (d : TDec) (init : List ℚ) (k : ℕ) :
    (tRows d init k).length = k + 1 := by
  induction k with
  | zero => rfl
  | succ k ih => simp [tRows, ih]

theorem tRows_getD_stable (d : TDec) (init : List ℚ) (m k : ℕ) (h : m ≤ k) :
    (tRows d init k).getD m [] = (tRows d init m).getD m [] := by
  induction k with
  | zero =>
    have : m = 0 := Nat.le_zero.mp h
    subst this
    rfl
  | succ k ih =>
    rcases Nat.lt_succ_iff_lt_or_eq.mp (Nat.lt_succ_of_le h) with h' | h'
    · show (tRows d init k ++ [tRowSucc d (tRows d init k)]).getD m [] = _
      rw [List.getD_append _ _ _ _ (by rw [tRows_length]; omega)]
      exact ih (by omega)
    · subst h'
      rfl

theorem tRow0_mulSys (x0 y0 : ℚ) :
    tRow0 mulSysDec [x0, y0] = [x0, y0, x0 * y0, y0 * x0] := rfl

theorem tRowSucc_mulSys (rs : List (List ℚ)) :
    tRowSucc mulSysDec rs =
      [(rs.getD (rs.length - 1) []).getD 2 0 / rs.length,
       (rs.getD (rs.length - 1) []).getD 3 0 / rs.length,
       ∑ j in Finset.range (rs.length + 1),
         (if j < rs.length then (rs.getD j []).getD 0 0
          else (rs.getD (rs.length - 1) []).getD 2 0 / rs.length) *
         (if rs.length - j < rs.length then (rs.getD (rs.length - j) []).getD 1 0
          else (rs.getD (rs.length - 1) []).getD 3 0 / rs.length),
       ∑ j in Finset.range (rs.length + 1),
         (if j < rs.length then (rs.getD j []).getD 1 0
          else (rs.getD (rs.length - 1) []).getD 3 0 / rs.length) *
         (if rs.length - j < rs.length then (rs.getD (rs.length - j) []).getD 0 0
          else (rs.getD (rs.length - 1) []).getD 2 0 / rs.length)] := rfl

theorem tCoeff_succ_eq (d : TDec) (init : List ℚ) (k i : ℕ) :
    tCoeff d init (k + 1) i = (tRowSucc d (tRows d init k)).getD i 0 := by
  unfold tCoeff
  show ((tRows d init k ++ [tRowSucc d (tRows d init k)]).getD (k + 1) []).getD i 0 = _
  rw [List.getD_append_right _ _ _ _ (by rw [tRows_length])]
  rw [tRows_length]
  simp

theorem mulSys_state_x (x0 y0 : ℚ) (k : ℕ) :
    tCoeff mulSysDec [x0, y0] (k + 1) 0 =
      tCoeff mulSysDec [x0, y0] k 2 / ((k + 1 : ℕ) : ℚ) := by
  rw [tCoeff_succ_eq, tRowSucc_mulSys, tRows_length]
  simp [tCoeff, Nat.add_sub_cancel]

theorem mulSys_state_y (x0 y0 : ℚ) (k : ℕ) :
    tCoeff mulSysDec [x0, y0] (k + 1) 1 =
      tCoeff mulSysDec [x0, y0] k 3 / ((k + 1 : ℕ) : ℚ) := by
  rw [tCoeff_succ_eq, tRowSucc_mulSys, tRows_length]
  simp [tCoeff, Nat.add_sub_cancel]

theorem mulSys_u2 (x0 y0 : ℚ) (k : ℕ) :
    tCoeff mulSysDec [x0, y0] k 2 =
      ∑ j in Finset.range (k + 1),
        tCoeff mulSysDec [x0, y0] j 0 * tCoeff mulSysDec [x0, y0] (k - j) 1 := by
  cases k with
  | zero => simp [tCoeff, tRows, tRow0_mulSys]
  | succ k =>
    rw [tCoeff_succ_eq, tRowSucc_mulSys, tRows_length]
    simp only [List.getD_cons_succ, List.getD_cons_zero, Nat.add_sub_cancel]
    refine Finset.sum_congr rfl ?_
    intro j hj
    have hj' : j ≤ k + 1 := Nat.lt_succ_iff.mp (Finset.mem_range.mp hj)
    have hfst : (if j < k + 1 then ((tRows mulSysDec [x0, y0] k).getD j []).getD 0 0
        else ((tRows mulSysDec [x0, y0] k).getD k []).getD 2 0 / ((k + 1 : ℕ) : ℚ)) =
        tCoeff mulSysDec [x0, y0] j 0 := by
      by_cases h : j < k + 1
      · rw [if_pos h, tRows_getD_stable _ _ _ _ (by omega)]
        rfl
      · have hjk : j = k + 1 := by omega
        subst hjk
        rw [if_neg h, mulSys_state_x]
        rfl
    have hsnd : (if k + 1 - j < k + 1 then
          ((tRows mulSysDec [x0, y0] k).getD (k + 1 - j) []).getD 1 0
        else ((tRows mulSysDec [x0, y0] k).getD k []).getD 3 0 / ((k + 1 : ℕ) : ℚ)) =
        tCoeff mulSysDec [x0, y0] (k + 1 - j) 1 := by
      by_cases h : k + 1 - j < k + 1
      · rw [if_pos h, tRows_getD_stable _ _ _ _ (by omega)]
        rfl
      · have hj0 : j = 0 := by omega
        subst hj0
        rw [if_neg h]
        simp only [Nat.sub_zero]
        rw [mulSys_state_y]
        rfl
    rw [hfst, hsnd]

theorem mulSys_u3 (x0 y0 : ℚ) (k : ℕ) :
    tCoeff mulSysDec [x0, y0] k 3 =
      ∑ j in Finset.range (k + 1),
        tCoeff mulSysDec [x0, y0] j 1 * tCoeff mulSysDec [x0, y0] (k - j) 0 := by
  cases k with
  | zero => simp [tCoeff, tRows, tRow0_mulSys]
  | succ k =>
    rw [tCoeff_succ_eq, tRowSucc_mulSys, tRows_length]
    simp only [List.getD_cons_succ, List.getD_cons_zero, Nat.add_sub_cancel]
    refine Finset.sum_congr rfl ?_
    intro j hj
    have hj' : j ≤ k + 1 := Nat.lt_succ_iff.mp (Finset.mem_range.mp hj)
    have hfst : (if j < k + 1 then ((tRows mulSysDec [x0, y0] k).getD j []).getD 1 0
        else ((tRows mulSysDec [x0, y0] k).getD k []).getD 3 0 / ((k + 1 : ℕ) : ℚ)) =
        tCoeff mulSysDec [x0, y0] j 1 := by
      by_cases h : j < k + 1
      · rw [if_pos h, tRows_getD_stable _ _ _ _ (by omega)]
        rfl
      · have hjk : j = k + 1 := by omega
        subst hjk
        rw [if_neg h, mulSys_state_y]
        rfl
    have hsnd : (if k + 1 - j < k + 1 then
          ((tRows mulSysDec [x0, y0] k).getD (k + 1 - j) []).getD 0 0
        else ((tRows mulSysDec [x0, y0] k).getD k []).getD 2 0 / ((k + 1 : ℕ) : ℚ)) =
        tCoeff mulSysDec [x0, y0] (k + 1 - j) 0 := by
      by_cases h : k + 1 - j < k + 1
      · rw [if_pos h, tRows_getD_stable _ _ _ _ (by omega)]
        rfl
      · have hj0 : j = 0 := by omega
        subst hj0
        rw [if_neg h]
        simp only [Nat.sub_zero]
        rw [mulSys_state_x]
        rfl
    rw [hfst, hsnd]

/-- **C3.**  For the system `{x' = x·y, y' = y·x}`, in every SIMD lane
the jet satisfies the product recurrence at every order `1 ≤ k ≤ p`:
the k-th Taylor coefficient of each state variable is
`(1/k)·Σ_{j=0..k−1} x^(j)·y^(k−1−j)` — the multiplication recurrence
combined with the ODE normalisation. -/
theorem taylor_mul_recurrence (p B : ℕ) (hp : 1 ≤ p)
    (xs ys : ℕ → ℚ) (l : ℕ) (hl : l < B) (k : ℕ) (hk : 1 ≤ k) (hkp : k ≤ p) :
    tCoeff mulSysDec [xs l, ys l] k 0 =
      (1 / (k : ℚ)) * ∑ j in Finset.range k,
        tCoeff mulSysDec [xs l, ys l] j 0 * tCoeff mulSysDec [xs l, ys l] (k - 1 - j) 1 ∧
    tCoeff mulSysDec [xs l, ys l] k 1 =
      (1 / (k : ℚ)) * ∑ j in Finset.range k,
        tCoeff mulSysDec [xs l, ys l] j 1 * tCoeff mulSysDec [xs l, ys l] (k - 1 - j) 0 := by
  obtain ⟨m, rfl⟩ : ∃ m, k = m + 1 := ⟨k - 1, by omega⟩
  constructor
  · rw [mulSys_state_x, mulSys_u2, div_eq_mul_inv, mul_comm, ← one_div]
    congr 1
  · rw [mulSys_state_y, mulSys_u3, div_eq_mul_inv, mul_comm, ← one_div]
    congr 1

theorem taylor_mul_recurrence_witness :
    (1 ≤ 2 ∧ 0 < 1 ∧ 1 ≤ 2 ∧ 2 ≤ 2) ∧
    (tCoeff mulSysDec [2, 3] 2 0 =
        (1 / (2 : ℚ)) * ∑ j in Finset.range 2,
          tCoeff mulSysDec [2, 3] j 0 * tCoeff mulSysDec [2, 3] (2 - 1 - j) 1 ∧
      tCoeff mulSysDec [2, 3] 2 1 =
        (1 / (2 : ℚ)) * ∑ j in Finset.range 2,
          tCoeff mulSysDec [2, 3] j 1 * tCoeff mulSysDec [2, 3] (2 - 1 - j) 0) :=
  ⟨⟨by norm_num, by norm_num, by norm_num, by norm_num⟩,
    taylor_mul_recurrence 2 1 (by norm_num) (fun _ => 2) (fun _ => 3) 0 (by norm_num) 2
      (by norm_num) (by norm_num)⟩

/-- The variable set allowed in a massless body's acceleration terms:
position axes only, of the body itself or of a massive body. -/
def MasslessOK (nm m : ℕ) (e : Ex) : Prop :=
  ∀ v ∈ e.vars, (v.1 = Ax.x ∨ v.1 = Ax.y ∨ v.1 = Ax.z) ∧ (v.2 = m ∨ v.2 < nm)

/-- Position variables of bodies `i` and `j` only. -/
def TermOK (i j : ℕ) (e : Ex) : Prop :=
  ∀ v ∈ e.vars, (v.1 = Ax.x ∨ v.1 = Ax.y ∨ v.1 = Ax.z) ∧ (v.2 = i ∨ v.2 = j)

theorem termOK_num (i j : ℕ) (q : ℚ) : TermOK i j (.num q) := by
  intro v hv
  simp [Ex.vars] at hv

theorem termOK_mul (i j : ℕ) (a b : Ex) (ha : TermOK i j a) (hb : TermOK i j b) :
    TermOK i j (.mul a b) := by
  intro v hv
  rcases Finset.mem_union.mp hv with h | h
  exacts [ha v h, hb v h]

theorem termOK_rM3 (i j : ℕ) : TermOK i j (rM3 i j) := by
  intro v hv
  simp only [rM3, diffX, diffY, diffZ, Ex.vars, Finset.mem_union, Finset.mem_singleton,
    Finset.not_mem_empty, or_false] at hv
  rcases hv with ((rfl | rfl) | (rfl | rfl)) | (rfl | rfl) <;> simp

theorem termOK_diffX (i j : ℕ) : TermOK i j (diffX i j) := by
  intro v hv
  simp only [diffX, Ex.vars, Finset.mem_union, Finset.mem_singleton] at hv
  rcases hv with rfl | rfl <;> simp

theorem termOK_diffY (i j : ℕ) : TermOK i j (diffY i j) := by
  intro v hv
  simp only [diffY, Ex.vars, Finset.mem_union, Finset.mem_singleton] at hv
  rcases hv with rfl | rfl <;> simp

theorem termOK_diffZ (i j : ℕ) : TermOK i j (diffZ i j) := by
  intro v hv
  simp only [diffZ, Ex.vars, Finset.mem_union, Finset.mem_singleton] at hv
  rcases hv with rfl | rfl <;> simp

theorem termOK_massless (nm i j : ℕ) (hi : i < nm) (e : Ex) (h : TermOK i j e) :
    MasslessOK nm j e := by
  intro v hv
  rcases h v hv with ⟨hax, hidx⟩
  refine ⟨hax, ?_⟩
  rcases hidx with h | h
  · right; omega
  · left; exact h

/-- The accumulator invariant: every term stored for a body with index
at least `nm` references only position variables of that body and of
massive bodies. -/
def AccOK (nm : ℕ) (st : AccSt) : Prop :=
  ∀ j, nm ≤ j →
    (∀ t ∈ st.xa j, MasslessOK nm j t) ∧ (∀ t ∈ st.ya j, MasslessOK nm j t) ∧
    (∀ t ∈ st.za j, MasslessOK nm j t)

theorem accOK_empty (nm : ℕ) : AccOK nm AccSt.empty := by
  intro j hj
  refine ⟨?_, ?_, ?_⟩ <;> intro t ht <;> simp [AccSt.empty] at ht

theorem accOK_push_low (nm : ℕ) (st : AccSt) (j : ℕ) (hj : j < nm) (tx ty tz : Ex)
    (h : AccOK nm st) : AccOK nm (st.push j tx ty tz) := by
  intro k hk
  have hne : k ≠ j := by omega
  simp only [AccSt.push, if_neg hne]
  exact h k hk

theorem accOK_push_high (nm : ℕ) (st : AccSt) (j : ℕ) (hj : nm ≤ j) (tx ty tz : Ex)
    (htx : MasslessOK nm j tx) (hty : MasslessOK nm j ty) (htz : MasslessOK nm j tz)
    (h : AccOK nm st) : AccOK nm (st.push j tx ty tz) := by
  intro k hk
  by_cases hkj : k = j
  · subst hkj
    simp only [AccSt.push, if_pos rfl]
    refine ⟨?_, ?_, ?_⟩ <;> intro t ht <;> rcases List.mem_append.mp ht with h' | h'
    · exact (h k hk).1 t h'
    · rw [List.mem_singleton.mp h']; exact htx
    · exact (h k hk).2.1 t h'
    · rw [List.mem_singleton.mp h']; exact hty
    · exact (h k hk).2.2 t h'
    · rw [List.mem_singleton.mp h']; exact htz
  · simp only [AccSt.push, if_neg hkj]
    exact h k hk

theorem accOK_innerFixedR (G : ℚ) (masses : List ℚ) (nm i : ℕ) (hi : i < nm)
    (st : AccSt) (j : ℕ) (h : AccOK nm st) :
    AccOK nm (innerFixedR G masses nm i st j) := by
  unfold innerFixedR
  split
  · exact accOK_push_low nm _ j (by assumption) _ _ _
      (accOK_push_low nm st i hi _ _ _ h)
  · rename_i hj
    refine accOK_push_high nm st j (by omega) _ _ _ ?_ ?_ ?_ h <;>
      refine termOK_massless nm i j hi _ (termOK_mul i j _ _ ?_
        (termOK_mul i j _ _ (termOK_num i j _) (termOK_rM3 i j)))
    exacts [termOK_diffX i j, termOK_diffY i j, termOK_diffZ i j]

theorem accOK_innerFixedR_fold (G : ℚ) (masses : List ℚ) (nm i : ℕ) (hi : i < nm)
    (L : List ℕ) (st : AccSt) (h : AccOK nm st) :
    AccOK nm (L.foldl (innerFixedR G masses nm i) st) := by
  induction L generalizing st with
  | nil => exact h
  | cons j L ih => exact ih _ (accOK_innerFixedR G masses nm i hi st j h)

/-- The equation-list invariant: every velocity-prime equation of a body
with index at least `nm` has an allowed right-hand side. -/
def EqsOK (nm : ℕ) (eqs : List Eqn) : Prop :=
  ∀ eq ∈ eqs, ∀ m, nm ≤ m →
    (eq.1 = (Ax.vx, m) ∨ eq.1 = (Ax.vy, m) ∨ eq.1 = (Ax.vz, m)) →
    MasslessOK nm m eq.2

theorem eqsOK_append (nm : ℕ) (e1 e2 : List Eqn) (h1 : EqsOK nm e1) (h2 : EqsOK nm e2) :
    EqsOK nm (e1 ++ e2) := by
  intro eq heq
  rcases List.mem_append.mp heq with h | h
  exacts [h1 eq h, h2 eq h]

theorem eqsOK_outerFixedR (G : ℚ) (masses : List ℚ) (n nm i : ℕ) (hi : i < nm)
    (acc : List Eqn × AccSt) (heqs : EqsOK nm acc.1) (hacc : AccOK nm acc.2) :
    EqsOK nm (outerFixedR G masses n nm acc i).1 ∧
      AccOK nm (outerFixedR G masses n nm acc i).2 := by
  constructor
  · refine eqsOK_append nm _ _ (eqsOK_append nm _ _ heqs ?_) ?_ <;>
      intro eq heq m hm hl <;>
      simp only [List.mem_cons, List.mem_singleton, List.not_mem_nil, or_false] at heq <;>
      rcases heq with rfl | rfl | rfl <;>
      rcases hl with hl | hl | hl <;>
      simp only [Prod.mk.injEq] at hl <;>
      first
        | exact absurd hl.1 (by intro hax; exact Ax.noConfusion hax)
        | (exfalso; omega)
  · exact accOK_innerFixedR_fold G masses nm i hi _ acc.2 hacc

theorem eqsOK_outerFixedR_fold (G : ℚ) (masses : List ℚ) (n nm : ℕ) (L : List ℕ)
    (hL : ∀ i ∈ L, i < nm) (acc : List Eqn × AccSt)
    (heqs : EqsOK nm acc.1) (hacc : AccOK nm acc.2) :
    EqsOK nm (L.foldl (outerFixedR G masses n nm) acc).1 ∧
      AccOK nm (L.foldl (outerFixedR G masses n nm) acc).2 := by
  induction L generalizing acc with
  | nil => exact ⟨heqs, hacc⟩
  | cons i L ih =>
    have hi := hL i (by simp)
    have hstep := eqsOK_outerFixedR G masses n nm i hi acc heqs hacc
    exact ih (fun j hj => hL j (by simp [hj])) _ hstep.1 hstep.2

theorem listSup_forall {α : Type} [DecidableEq α] (f : Ex → Finset α) (l : List Ex)
    (P : α → Prop) (h : ∀ e ∈ l, ∀ v ∈ f e, P v) :
    ∀ v ∈ listSup f l, P v := by
  induction l with
  | nil => intro v hv; simp [listSup] at hv
  | cons e l ih =>
    intro v hv
    simp only [listSup, List.foldr_cons] at hv
    rcases Finset.mem_union.mp hv with h' | h'
    · exact h e (by simp) v h'
    · exact ih (fun e' he' => h e' (by simp [he'])) v h'

theorem masslessOK_pairwiseSumEx (nm m : ℕ) (l : List Ex)
    (h : ∀ t ∈ l, MasslessOK nm m t) : MasslessOK nm m (pairwiseSumEx l) := by
  by_cases hl : l = []
  · subst hl
    intro v hv
    have hz : pairwiseSumEx [] = .num 0 := rfl
    rw [hz] at hv
    simp [Ex.vars] at hv
  · intro v hv
    have hsub := pairwiseSumEx_leafy Ex.vars (fun a b => by
      intro w hw
      exact hw) l hl
    exact listSup_forall Ex.vars l _ h v (hsub hv)

theorem eqsOK_tailMassless (nm : ℕ) (st : AccSt) (hacc : AccOK nm st) (eqs : List Eqn)
    (heqs : EqsOK nm eqs) (i : ℕ) (hi : nm ≤ i) :
    EqsOK nm (tailMassless st eqs i) := by
  refine eqsOK_append nm _ _ heqs ?_
  intro eq heq m hm hl
  simp only [List.mem_cons, List.mem_singleton, List.not_mem_nil, or_false] at heq
  have hrows := hacc i hi
  rcases heq with rfl | rfl | rfl | rfl | rfl | rfl <;>
    rcases hl with hl | hl | hl <;>
    simp only [Prod.mk.injEq] at hl <;>
    first
      | exact absurd hl.1 (by intro hax; exact Ax.noConfusion hax)
      | (obtain ⟨-, rfl⟩ := hl
         first
           | exact masslessOK_pairwiseSumEx _ _ _ hrows.1
           | exact masslessOK_pairwiseSumEx _ _ _ hrows.2.1
           | exact masslessOK_pairwiseSumEx _ _ _ hrows.2.2)

theorem eqsOK_tailMassless_fold (nm : ℕ) (st : AccSt) (hacc : AccOK nm st)
    (L : List ℕ) (hL : ∀ i ∈ L, nm ≤ i) (eqs : List Eqn) (heqs : EqsOK nm eqs) :
    EqsOK nm (L.foldl (tailMassless st) eqs) := by
  induction L generalizing eqs with
  | nil => exact heqs
  | cons i L ih =>
    exact ih (fun j hj => hL j (by simp [hj])) _
      (eqsOK_tailMassless nm st hacc eqs heqs i (hL i (by simp)))

theorem takeWhile_append_all {α : Type} (P : α → Bool) (A B : List α)
    (hA : ∀ a ∈ A, P a = true) (hB : ∀ b, B.head? = some b → P b = false) :
    (A ++ B).takeWhile P = A := by
  induction A with
  | nil =>
    cases B with
    | nil => rfl
    | cons b B' =>
      simp only [List.nil_append, List.takeWhile_cons]
      rw [hB b rfl]
      rfl
  | cons a A ih =>
    simp only [List.cons_append, List.takeWhile_cons]
    rw [hA a (by simp), if_pos rfl, ih (fun x hx => hA x (by simp [hx]))]

theorem takeWhile_all_self {α : Type} (P : α → Bool) (l : List α)
    (h : ∀ a ∈ l, P a = true) : l.takeWhile P = l := by
  induction l with
  | nil => rfl
  | cons a l ih =>
    simp only [List.takeWhile_cons]
    rw [h a (by simp), if_pos rfl, ih (fun x hx => h x (by simp [hx]))]

theorem nMassiveOf_split (A Bz : List ℚ) (hAnz : ∀ q ∈ A, q ≠ 0)
    (hBz : ∀ q ∈ Bz, q = 0) : nMassiveOf (A ++ Bz) = A.length := by
  unfold nMassiveOf
  rw [takeWhile_append_all _ A Bz (fun a ha => decide_eq_true (hAnz a ha)) ?_]
  intro b hb
  cases Bz with
  | nil => simp at hb
  | cons b0 B' =>
    simp only [List.head?_cons, Option.some.injEq] at hb
    have h0 : b = 0 := by rw [← hb]; exact hBz b0 (by simp)
    rw [h0]
    simp

theorem nMasslessOf_split (A Bz : List ℚ) (hAnz : ∀ q ∈ A, q ≠ 0)
    (hBz : ∀ q ∈ Bz, q = 0) : nMasslessOf (A ++ Bz) = Bz.length := by
  unfold nMasslessOf
  rw [nMassiveOf_split A Bz hAnz hBz, List.drop_left,
    takeWhile_all_self _ Bz (fun q hq => decide_eq_true (hBz q hq))]

/-- **C4.**  In the restricted system built by
`make_nbody_sys_fixed_masses` for a non-empty block of non-zero masses
followed by at least one zero mass, the acceleration expression of every
massless body references only position variables of that body itself and
of massive bodies — never the position of another massless body. -/
theorem nbody_massless_isolated (n : ℕ) (hn : 2 ≤ n) (G : ℚ) (masses A Bz : List ℚ)
    (hsplit : masses = A ++ Bz) (hAne : A ≠ []) (hAnz : ∀ q ∈ A, q ≠ 0)
    (hBne : Bz ≠ []) (hBz : ∀ q ∈ Bz, q = 0) (hlen : masses.length = n)
    (m : ℕ) (hm : A.length ≤ m) (eq : Eqn)
    (heq : eq ∈ okEqs (make_nbody_sys_fixed_masses n G masses))
    (hlhs : eq.1 = (Ax.vx, m) ∨ eq.1 = (Ax.vy, m) ∨ eq.1 = (Ax.vz, m)) :
    ∀ v ∈ eq.2.vars, (v.1 = Ax.x ∨ v.1 = Ax.y ∨ v.1 = Ax.z) ∧
      (v.2 = m ∨ v.2 < A.length) := by
  subst hsplit
  have hnm : nMassiveOf (A ++ Bz) = A.length := nMassiveOf_split A Bz hAnz hBz
  have hnz : nMasslessOf (A ++ Bz) = Bz.length := nMasslessOf_split A Bz hAnz hBz
  have hcond : nMasslessOf (A ++ Bz) ≠ 0 ∧
      nMassiveOf (A ++ Bz) + nMasslessOf (A ++ Bz) = n := by
    rw [hnm, hnz]
    refine ⟨fun h0 => hBne (List.length_eq_zero.mp h0), ?_⟩
    rw [← hlen, List.length_append]
  have hres : make_nbody_sys_fixed_masses n G (A ++ Bz) =
      .ok (fixedRestricted n G (A ++ Bz)) := by
    unfold make_nbody_sys_fixed_masses
    rw [if_neg (not_not_intro hlen), if_pos hcond]
  rw [hres] at heq
  have heq' : eq ∈ fixedRestricted n G (A ++ Bz) := heq
  unfold fixedRestricted at heq'
  have hfold := eqsOK_outerFixedR_fold G (A ++ Bz) n (nMassiveOf (A ++ Bz))
    (List.range (nMassiveOf (A ++ Bz))) (fun i hi => List.mem_range.mp hi)
    ([], AccSt.empty) (fun eq' heq'' => by simp at heq'') (accOK_empty _)
  have hfinal := eqsOK_tailMassless_fold (nMassiveOf (A ++ Bz)) _ hfold.2
    (List.range' (nMassiveOf (A ++ Bz)) (n - nMassiveOf (A ++ Bz)))
    (fun i hi => (List.mem_range'_1.mp hi).1) _ hfold.1
  have hml := hfinal eq heq' m (by rw [hnm]; exact hm) hlhs
  intro v hv
  have hc := hml v hv
  rw [hnm] at hc
  exact hc

theorem getD_mem_of_lt {α : Type} (l : List α) (i : ℕ) (d : α) (h : i < l.length) :
    l.getD i d ∈ l := by
  rw [List.getD_eq_getElem l d h]
  exact List.getElem_mem h

theorem nbody_massless_isolated_witness :
    (2 ≤ 3 ∧ ([1, 0, 0] : List ℚ) = [1] ++ [0, 0] ∧ ([1] : List ℚ) ≠ [] ∧
      (∀ q ∈ ([1] : List ℚ), q ≠ 0) ∧ ([0, 0] : List ℚ) ≠ [] ∧
      (∀ q ∈ ([0, 0] : List ℚ), q = 0) ∧ ([1, 0, 0] : List ℚ).length = 3 ∧
      ([1] : List ℚ).length ≤ 1 ∧
      (okEqs (make_nbody_sys_fixed_masses 3 1 [1, 0, 0])).getD 9 ((Ax.x, 0), Ex.num 0) ∈
        okEqs (make_nbody_sys_fixed_masses 3 1 [1, 0, 0]) ∧
      (((okEqs (make_nbody_sys_fixed_masses 3 1 [1, 0, 0])).getD 9
          ((Ax.x, 0), Ex.num 0)).1 = (Ax.vx, 1) ∨
        ((okEqs (make_nbody_sys_fixed_masses 3 1 [1, 0, 0])).getD 9
          ((Ax.x, 0), Ex.num 0)).1 = (Ax.vy, 1) ∨
        ((okEqs (make_nbody_sys_fixed_masses 3 1 [1, 0, 0])).getD 9
          ((Ax.x, 0), Ex.num 0)).1 = (Ax.vz, 1))) ∧
    (∀ v ∈ ((okEqs (make_nbody_sys_fixed_masses 3 1 [1, 0, 0])).getD 9
        ((Ax.x, 0), Ex.num 0)).2.vars,
      (v.1 = Ax.x ∨ v.1 = Ax.y ∨ v.1 = Ax.z) ∧
        (v.2 = 1 ∨ v.2 < ([1] : List ℚ).length)) :=
  ⟨⟨by decide, by decide, by decide, by decide, by decide, by decide, by decide, by decide,
      getD_mem_of_lt _ 9 _ (by decide), by decide⟩,
    nbody_massless_isolated 3 (by decide) 1 [1, 0, 0] [1] [0, 0] (by decide) (by decide)
      (by decide) (by decide) (by decide) (by decide) 1 (by decide)
      ((okEqs (make_nbody_sys_fixed_masses 3 1 [1, 0, 0])).getD 9 ((Ax.x, 0), Ex.num 0))
      (getD_mem_of_lt _ 9 _ (by decide)) (by decide)⟩


/-- The parameter-purity predicate for the parametric-masses system:
every numeric literal is one of the mass-independent constants `G`,
`-G`, `-3/2` or `0` (the empty pairwise sum), and every parameter
reference indexes a massive body. -/
def ParEqOK (G : ℚ) (nm : ℕ) (e : Ex) : Prop :=
  (∀ q ∈ e.numConsts, q = G ∨ q = -G ∨ q = -3 / 2 ∨ q = 0) ∧
  (∀ i ∈ e.parIdxs, i < nm)

theorem parEqOK_var (G : ℚ) (nm : ℕ) (a : Ax) (i : ℕ) : ParEqOK G nm (.var a i) := by
  constructor <;> intro q hq <;> simp [Ex.numConsts, Ex.parIdxs] at hq

theorem parEqOK_mul (G : ℚ) (nm : ℕ) (a b : Ex)
    (ha : ParEqOK G nm a) (hb : ParEqOK G nm b) : ParEqOK G nm (.mul a b) := by
  constructor
  · intro q hq
    rcases Finset.mem_union.mp hq with h | h
    exacts [ha.1 q h, hb.1 q h]
  · intro i hi
    rcases Finset.mem_union.mp hi with h | h
    exacts [ha.2 i h, hb.2 i h]

theorem parEqOK_rM3 (G : ℚ) (nm i j : ℕ) : ParEqOK G nm (rM3 i j) := by
  constructor
  · intro q hq
    simp only [rM3, diffX, diffY, diffZ, Ex.numConsts, Finset.mem_union,
      Finset.not_mem_empty, Finset.mem_singleton, or_false, false_or] at hq
    subst hq
    right; right; left; rfl
  · intro k hk
    simp [rM3, diffX, diffY, diffZ, Ex.parIdxs] at hk

theorem parEqOK_facj (G : ℚ) (nm i j : ℕ) (hj : j < nm) :
    ParEqOK G nm (Ex.mul (.mul (.num G) (.par j)) (rM3 i j)) := by
  constructor
  · intro q hq
    simp [Ex.numConsts, rM3, diffX, diffY, diffZ] at hq
    rcases hq with rfl | rfl
    · left; rfl
    · right; right; left; rfl
  · intro k hk
    simp [Ex.parIdxs, rM3, diffX, diffY, diffZ] at hk
    subst hk
    exact hj

theorem parEqOK_cij (G : ℚ) (nm i j : ℕ) (hi : i < nm) (hj : j < nm) :
    ParEqOK G nm (Ex.div (.neg (.par i)) (.par j)) := by
  constructor
  · intro q hq
    simp [Ex.numConsts] at hq
  · intro k hk
    simp only [Ex.parIdxs, Finset.mem_union, Finset.mem_singleton] at hk
    rcases hk with rfl | rfl
    exacts [hi, hj]

theorem parEqOK_fac (G : ℚ) (nm i j : ℕ) (hi : i < nm) :
    ParEqOK G nm (Ex.mul (.mul (.num (-G)) (.par i)) (rM3 i j)) := by
  constructor
  · intro q hq
    simp [Ex.numConsts, rM3, diffX, diffY, diffZ] at hq
    rcases hq with rfl | rfl
    · right; left; rfl
    · right; right; left; rfl
  · intro k hk
    simp [Ex.parIdxs, rM3, diffX, diffY, diffZ] at hk
    subst hk
    exact hi

theorem parEqOK_diffs (G : ℚ) (nm i j : ℕ) :
    ParEqOK G nm (diffX i j) ∧ ParEqOK G nm (diffY i j) ∧ ParEqOK G nm (diffZ i j) := by
  refine ⟨⟨?_, ?_⟩, ⟨?_, ?_⟩, ⟨?_, ?_⟩⟩ <;> intro q hq <;>
    simp [diffX, diffY, diffZ, Ex.numConsts, Ex.parIdxs] at hq

/-- The accumulator invariant for the parametric builder. -/
def AccP (G : ℚ) (nm : ℕ) (st : AccSt) : Prop :=
  ∀ j, (∀ t ∈ st.xa j, ParEqOK G nm t) ∧ (∀ t ∈ st.ya j, ParEqOK G nm t) ∧
    (∀ t ∈ st.za j, ParEqOK G nm t)

theorem accP_empty (G : ℚ) (nm : ℕ) : AccP G nm AccSt.empty := by
  intro j
  refine ⟨?_, ?_, ?_⟩ <;> intro t ht <;> simp [AccSt.empty] at ht

theorem accP_push (G : ℚ) (nm : ℕ) (st : AccSt) (j : ℕ) (tx ty tz : Ex)
    (htx : ParEqOK G nm tx) (hty : ParEqOK G nm ty) (htz : ParEqOK G nm tz)
    (h : AccP G nm st) : AccP G nm (st.push j tx ty tz) := by
  intro k
  by_cases hkj : k = j
  · subst hkj
    simp only [AccSt.push, if_pos rfl]
    refine ⟨?_, ?_, ?_⟩ <;> intro t ht <;> rcases List.mem_append.mp ht with h' | h'
    · exact (h k).1 t h'
    · rw [List.mem_singleton.mp h']; exact htx
    · exact (h k).2.1 t h'
    · rw [List.mem_singleton.mp h']; exact hty
    · exact (h k).2.2 t h'
    · rw [List.mem_singleton.mp h']; exact htz
  · simp only [AccSt.push, if_neg hkj]
    exact h k

theorem accP_innerPar (G : ℚ) (nm i : ℕ) (hi : i < nm) (st : AccSt) (j : ℕ)
    (h : AccP G nm st) : AccP G nm (innerPar G nm i st j) := by
  obtain ⟨hdx, hdy, hdz⟩ := parEqOK_diffs G nm i j
  unfold innerPar
  split
  · rename_i hj
    have hfac := parEqOK_facj G nm i j hj
    have hcij := parEqOK_cij G nm i j hi hj
    refine accP_push G nm _ j _ _ _
      (parEqOK_mul G nm _ _ (parEqOK_mul G nm _ _ hdx hfac) hcij)
      (parEqOK_mul G nm _ _ (parEqOK_mul G nm _ _ hdy hfac) hcij)
      (parEqOK_mul G nm _ _ (parEqOK_mul G nm _ _ hdz hfac) hcij)
      (accP_push G nm st i _ _ _
        (parEqOK_mul G nm _ _ hdx hfac)
        (parEqOK_mul G nm _ _ hdy hfac)
        (parEqOK_mul G nm _ _ hdz hfac) h)
  · have hfac := parEqOK_fac G nm i j hi
    exact accP_push G nm st j _ _ _
      (parEqOK_mul G nm _ _ hdx hfac)
      (parEqOK_mul G nm _ _ hdy hfac)
      (parEqOK_mul G nm _ _ hdz hfac) h

theorem accP_innerPar_fold (G : ℚ) (nm i : ℕ) (hi : i < nm) (L : List ℕ) (st : AccSt)
    (h : AccP G nm st) : AccP G nm (L.foldl (innerPar G nm i) st) := by
  induction L generalizing st with
  | nil => exact h
  | cons j L ih => exact ih _ (accP_innerPar G nm i hi st j h)

theorem parEqOK_pairwiseSumEx (G : ℚ) (nm : ℕ) (l : List Ex)
    (h : ∀ t ∈ l, ParEqOK G nm t) : ParEqOK G nm (pairwiseSumEx l) := by
  by_cases hl : l = []
  · subst hl
    have hz : pairwiseSumEx [] = .num 0 := rfl
    rw [hz]
    constructor
    · intro q hq
      simp only [Ex.numConsts, Finset.mem_singleton] at hq
      subst hq
      right; right; right; rfl
    · intro i hi
      simp [Ex.parIdxs] at hi
  · constructor
    · intro q hq
      have hsub := pairwiseSumEx_leafy Ex.numConsts (fun a b w hw => hw) l hl
      exact listSup_forall Ex.numConsts l _ (fun t ht => (h t ht).1) q (hsub hq)
    · intro i hi
      have hsub := pairwiseSumEx_leafy Ex.parIdxs (fun a b w hw => hw) l hl
      exact listSup_forall Ex.parIdxs l _ (fun t ht => (h t ht).2) i (hsub hi)

/-- The equation-list invariant for the parametric builder. -/
def EqsP (G : ℚ) (nm : ℕ) (eqs : List Eqn) : Prop :=
  ∀ eq ∈ eqs, ParEqOK G nm eq.2

theorem eqsP_append (G : ℚ) (nm : ℕ) (e1 e2 : List Eqn) (h1 : EqsP G nm e1)
    (h2 : EqsP G nm e2) : EqsP G nm (e1 ++ e2) := by
  intro eq heq
  rcases List.mem_append.mp heq with h | h
  exacts [h1 eq h, h2 eq h]

theorem eqsP_outerPar (G : ℚ) (n nm i : ℕ) (hi : i < nm) (acc : List Eqn × AccSt)
    (heqs : EqsP G nm acc.1) (hacc : AccP G nm acc.2) :
    EqsP G nm (outerPar G n nm acc i).1 ∧ AccP G nm (outerPar G n nm acc i).2 := by
  have hacc2 := accP_innerPar_fold G nm i hi (List.range' (i + 1) (n - (i + 1))) acc.2 hacc
  refine ⟨?_, hacc2⟩
  refine eqsP_append G nm _ _ (eqsP_append G nm _ _ heqs ?_) ?_ <;>
    intro eq heq <;>
    simp only [List.mem_cons, List.mem_singleton, List.not_mem_nil, or_false] at heq <;>
    rcases heq with rfl | rfl | rfl
  · exact parEqOK_var G nm _ _
  · exact parEqOK_var G nm _ _
  · exact parEqOK_var G nm _ _
  · exact parEqOK_pairwiseSumEx G nm _ (hacc2 i).1
  · exact parEqOK_pairwiseSumEx G nm _ (hacc2 i).2.1
  · exact parEqOK_pairwiseSumEx G nm _ (hacc2 i).2.2

theorem eqsP_outerPar_fold (G : ℚ) (n nm : ℕ) (L : List ℕ) (hL : ∀ i ∈ L, i < nm)
    (acc : List Eqn × AccSt) (heqs : EqsP G nm acc.1) (hacc : AccP G nm acc.2) :
    EqsP G nm (L.foldl (outerPar G n nm) acc).1 ∧
      AccP G nm (L.foldl (outerPar G n nm) acc).2 := by
  induction L generalizing acc with
  | nil => exact ⟨heqs, hacc⟩
  | cons i L ih =>
    have hstep := eqsP_outerPar G n nm i (hL i (by simp)) acc heqs hacc
    exact ih (fun j hj => hL j (by simp [hj])) _ hstep.1 hstep.2

theorem eqsP_tailMassless (G : ℚ) (nm : ℕ) (st : AccSt) (hacc : AccP G nm st)
    (eqs : List Eqn) (heqs : EqsP G nm eqs) (i : ℕ) :
    EqsP G nm (tailMassless st eqs i) := by
  refine eqsP_append G nm _ _ heqs ?_
  intro eq heq
  simp only [List.mem_cons, List.mem_singleton, List.not_mem_nil, or_false] at heq
  rcases heq with rfl | rfl | rfl | rfl | rfl | rfl
  · exact parEqOK_var G nm _ _
  · exact parEqOK_var G nm _ _
  · exact parEqOK_var G nm _ _
  · exact parEqOK_pairwiseSumEx G nm _ (hacc i).1
  · exact parEqOK_pairwiseSumEx G nm _ (hacc i).2.1
  · exact parEqOK_pairwiseSumEx G nm _ (hacc i).2.2

theorem eqsP_tailMassless_fold (G : ℚ) (nm : ℕ) (st : AccSt) (hacc : AccP G nm st)
    (L : List ℕ) (eqs : List Eqn) (heqs : EqsP G nm eqs) :
    EqsP G nm (L.foldl (tailMassless st) eqs) := by
  induction L generalizing eqs with
  | nil => exact heqs
  | cons i L ih => exact ih _ (eqsP_tailMassless G nm st hacc eqs heqs i)

/-- **C8.**  In the system returned by `make_nbody_sys_par_masses`, the
masses enter the right-hand sides only through `par[i]` references to
massive-body indices; every numeric literal is one of the
mass-independent constants `G`, `-G`, `-3/2` (or `0` for an empty
pairwise sum), so the same expression system evaluates against any
runtime parameter buffer supplying the masses. -/
theorem nbody_par_masses_par_only (n : ℕ) (hn : 2 ≤ n) (G : ℚ) (n_massive : ℕ)
    (eq : Eqn) (heq : eq ∈ okEqs (make_nbody_sys_par_masses n G n_massive)) :
    ParEqOK G n_massive eq.2 := by
  by_cases hgt : n_massive > n
  · unfold make_nbody_sys_par_masses at heq
    rw [if_pos hgt] at heq
    simp [okEqs, Except.toOption] at heq
  · unfold make_nbody_sys_par_masses at heq
    rw [if_neg hgt] at heq
    have heq' : eq ∈ parSys n G n_massive := heq
    unfold parSys at heq'
    have hfold := eqsP_outerPar_fold G n n_massive (List.range n_massive)
      (fun i hi => List.mem_range.mp hi) ([], AccSt.empty)
      (fun eq' heq'' => by simp at heq'') (accP_empty G n_massive)
    exact eqsP_tailMassless_fold G n_massive _ hfold.2 _ _ hfold.1 eq heq'

theorem nbody_par_masses_par_only_witness :
    (2 ≤ 2 ∧
      (okEqs (make_nbody_sys_par_masses 2 1 1)).getD 9 ((Ax.x, 0), Ex.num 0) ∈
        okEqs (make_nbody_sys_par_masses 2 1 1)) ∧
    ParEqOK 1 1 ((okEqs (make_nbody_sys_par_masses 2 1 1)).getD 9 ((Ax.x, 0), Ex.num 0)).2 :=
  ⟨⟨by decide, getD_mem_of_lt _ 9 _ (by decide)⟩,
    nbody_par_masses_par_only 2 (by decide) 1 1
      ((okEqs (make_nbody_sys_par_masses 2 1 1)).getD 9 ((Ax.x, 0), Ex.num 0))
      (getD_mem_of_lt _ 9 _ (by decide))⟩


/-- **C10.**  `random_elliptic_state` is deterministic in its arguments:
whatever state the thread-local generator holds when the call begins,
the result (validation outcome, cartesian state and final generator
state) depends only on `mu`, the bounds and the seed, because the
generator is re-seeded from the seed argument before any draw. -/
theorem random_elliptic_state_deterministic (T : TrigModel) (mu : Dbl) (B : Bounds6)
    (seed : ℕ) (rng1 rng2 : MT) :
    random_elliptic_state T mu B seed rng1 = random_elliptic_state T mu B seed rng2 := rfl

end Heyoka
